import Mathlib

/-!
Verification of `scripts/generate.py` (daily one-pager generator).

Python strings are modeled as `List Char`; the relevant library calls are
embedded as executable Lean functions:

* `str.strip()` / `str.split()` use the whitespace set, modeled here on its
  ASCII fragment (`isPyWs`); the texts processed by the script are ASCII.
* `re.sub(r'\n\x7b2,\x7d', '\n\n', _)` and `re.sub(r'[ \t\f\v]+', ' ', _)`
  replace maximal runs, embedded as the state machines `collapseNL` /
  `collapseWs`.
-/

/-- Strings of the Python program, as lists of characters. -/
abbrev Str := List Char

/-- Whitespace as recognized by Python str.strip and str.split (ASCII fragment). -/
def isPyWs (c : Char) : Bool :=
  c = ' ' || c = '\t' || c = '\n' || c = '\r' || c = '\x0b' || c = '\x0c'

/-- Horizontal whitespace: the regex character class [ \t\f\v]. -/
def isHWs (c : Char) : Bool :=
  c = ' ' || c = '\t' || c = '\x0c' || c = '\x0b'

/-- State machine for re.sub(r'\n\x7b2,\x7d', '\n\n', txt): `k` counts the
newline characters already consumed in the current run; only the first two
newlines of each run are emitted, so a maximal run of `k ≥ 2` newlines is
replaced by exactly two. -/
def collapseNLAux : Nat → Str → Str
  | _, [] => []
  | k, c :: rest =>
    if c = '\n' then (if k < 2 then ['\n'] else []) ++ collapseNLAux (k + 1) rest
    else c :: collapseNLAux 0 rest

/-- The inner substitution of normalize_spaces. -/
def collapseNL (l : Str) : Str := collapseNLAux 0 l

/-- State machine for re.sub(r'[ \t\f\v]+', ' ', txt): `b` records whether the
previous character belonged to a horizontal-whitespace run; each maximal run
is replaced by a single space. -/
def collapseWsAux : Bool → Str → Str
  | _, [] => []
  | b, c :: rest =>
    if isHWs c then (if b then [] else [' ']) ++ collapseWsAux true rest
    else c :: collapseWsAux false rest

/-- The outer substitution of normalize_spaces. -/
def collapseWs (l : Str) : Str := collapseWsAux false l

/-- Remove the trailing run of characters satisfying `p` (right half of str.strip). -/
def dropTrailing (p : Char → Bool) : Str → Str
  | [] => []
  | c :: rest =>
    let r := dropTrailing p rest
    if r = [] && p c then [] else c :: r

/-- Python str.strip() with no arguments: remove leading and trailing whitespace. -/
def pyStrip (l : Str) : Str := dropTrailing isPyWs (l.dropWhile isPyWs)

/-- normalize_spaces from the source:
return re.sub(r'[ \t\f\v]+', ' ', re.sub(r'\n\x7b2,\x7d', '\n\n', txt)).strip() -/
def normalize_spaces (txt : Str) : Str := pyStrip (collapseWs (collapseNL txt))

/-- Invariant used for idempotence: with `k` newlines immediately before the
head, no newline run of the list ever exceeds two consecutive newlines. -/
def okNL : Nat → Str → Bool
  | _, [] => true
  | k, c :: rest => if c = '\n' then decide (k < 2) && okNL (k + 1) rest else okNL 0 rest

/-- Invariant used for idempotence: every horizontal-whitespace character is a
plain space and no two are adjacent (with `b` recording whether the previous
character was one). -/
def okWs : Bool → Str → Bool
  | _, [] => true
  | b, c :: rest => if isHWs c then decide (c = ' ') && !b && okWs true rest else okWs false rest

theorem okNL_cons (k : Nat) (c : Char) (rest : Str) :
    okNL k (c :: rest) =
      if c = '\n' then decide (k < 2) && okNL (k + 1) rest else okNL 0 rest := rfl

theorem okWs_cons (b : Bool) (c : Char) (rest : Str) :
    okWs b (c :: rest) =
      if isHWs c then decide (c = ' ') && !b && okWs true rest else okWs false rest := rfl

theorem collapseNLAux_cons (k : Nat) (c : Char) (rest : Str) :
    collapseNLAux k (c :: rest) =
      if c = '\n' then (if k < 2 then ['\n'] else []) ++ collapseNLAux (k + 1) rest
      else c :: collapseNLAux 0 rest := rfl

theorem collapseWsAux_cons (b : Bool) (c : Char) (rest : Str) :
    collapseWsAux b (c :: rest) =
      if isHWs c then (if b then [] else [' ']) ++ collapseWsAux true rest
      else c :: collapseWsAux false rest := rfl

theorem okNL_mono : ∀ (l : Str) (i j : Nat), i ≤ j → okNL j l = true → okNL i l = true := by
  intro l
  induction l with
  | nil => intro i j _ _; rfl
  | cons c rest ih =>
    intro i j hij h
    rw [okNL_cons] at h ⊢
    by_cases hc : c = '\n'
    · rw [if_pos hc] at h ⊢
      simp only [Bool.and_eq_true, decide_eq_true_eq] at h ⊢
      exact ⟨Nat.lt_of_le_of_lt hij h.1, ih (i + 1) (j + 1) (Nat.succ_le_succ hij) h.2⟩
    · rw [if_neg hc] at h ⊢
      exact h

theorem okNL_collapseNLAux : ∀ (l : Str) (k : Nat),
    okNL (min k 2) (collapseNLAux k l) = true := by
  intro l
  induction l with
  | nil => intro k; rfl
  | cons c rest ih =>
    intro k
    rw [collapseNLAux_cons]
    by_cases hc : c = '\n'
    · rw [if_pos hc]
      by_cases hk : k < 2
      · rw [if_pos hk]
        show okNL (min k 2) ('\n' :: collapseNLAux (k + 1) rest) = true
        rw [okNL_cons, if_pos (show ('\n' : Char) = '\n' from rfl)]
        have h1 : min k 2 < 2 := by omega
        have h2 : min k 2 + 1 = min (k + 1) 2 := by omega
        rw [Bool.and_eq_true, decide_eq_true_eq]
        exact ⟨h1, h2 ▸ ih (k + 1)⟩
      · rw [if_neg hk]
        show okNL (min k 2) (collapseNLAux (k + 1) rest) = true
        have h2 : min k 2 = min (k + 1) 2 := by omega
        exact h2 ▸ ih (k + 1)
    · rw [if_neg hc]
      rw [okNL_cons, if_neg hc]
      exact okNL_mono _ 0 (min 0 2) (Nat.zero_le _) (ih 0)

theorem collapseNLAux_id : ∀ (l : Str) (k : Nat), okNL k l = true → collapseNLAux k l = l := by
  intro l
  induction l with
  | nil => intro k _; rfl
  | cons c rest ih =>
    intro k h
    rw [okNL_cons] at h
    rw [collapseNLAux_cons]
    by_cases hc : c = '\n'
    · rw [if_pos hc] at h ⊢
      simp only [Bool.and_eq_true, decide_eq_true_eq] at h
      rw [if_pos h.1, ih (k + 1) h.2, hc]
      rfl
    · rw [if_neg hc] at h ⊢
      rw [ih 0 h]

theorem okWs_false_of_true : ∀ (l : Str), okWs true l = true → okWs false l = true := by
  intro l h
  cases l with
  | nil => rfl
  | cons c rest =>
    rw [okWs_cons] at h ⊢
    by_cases hc : isHWs c = true
    · rw [if_pos hc] at h
      simp only [Bool.not_true, Bool.and_false, Bool.false_and] at h
      exact absurd h (by decide)
    · rw [if_neg hc] at h ⊢
      exact h

theorem okWs_collapseWsAux : ∀ (l : Str) (b : Bool), okWs b (collapseWsAux b l) = true := by
  intro l
  induction l with
  | nil => intro b; rfl
  | cons c rest ih =>
    intro b
    rw [collapseWsAux_cons]
    by_cases hc : isHWs c = true
    · rw [if_pos hc]
      cases b with
      | false =>
        show okWs false (' ' :: collapseWsAux true rest) = true
        rw [okWs_cons]
        have hsp : isHWs ' ' = true := by decide
        rw [if_pos hsp]
        have hd : decide (' ' = ' ') = true := by decide
        rw [hd]
        simp only [Bool.not_false, Bool.and_true, Bool.true_and]
        exact ih true
      | true =>
        show okWs true (collapseWsAux true rest) = true
        exact ih true
    · rw [if_neg hc]
      rw [okWs_cons, if_neg hc]
      exact ih false

theorem collapseWsAux_id : ∀ (l : Str) (b : Bool), okWs b l = true → collapseWsAux b l = l := by
  intro l
  induction l with
  | nil => intro b _; rfl
  | cons c rest ih =>
    intro b h
    rw [okWs_cons] at h
    rw [collapseWsAux_cons]
    by_cases hc : isHWs c = true
    · rw [if_pos hc] at h ⊢
      simp only [Bool.and_eq_true, decide_eq_true_eq, Bool.not_eq_true'] at h
      obtain ⟨⟨h1, h2⟩, h3⟩ := h
      rw [h2]
      rw [if_neg (by simp : ¬ (false = true))]
      rw [List.singleton_append, ih true h3, h1]
    · rw [if_neg hc] at h ⊢
      rw [ih false h]

theorem okNL_collapseWsAux_pres : ∀ (l : Str) (b : Bool) (j : Nat),
    (b = true → j = 0) → okNL j l = true → okNL j (collapseWsAux b l) = true := by
  intro l
  induction l with
  | nil => intro b j _ _; rfl
  | cons c rest ih =>
    intro b j hbj h
    rw [okNL_cons] at h
    rw [collapseWsAux_cons]
    by_cases hc : isHWs c = true
    · have hcn : ¬ (c = '\n') := by
        intro he; rw [he] at hc; simp [isHWs] at hc
      rw [if_neg hcn] at h
      rw [if_pos hc]
      cases b with
      | false =>
        show okNL j (' ' :: collapseWsAux true rest) = true
        rw [okNL_cons]
        have hn : ¬ ((' ' : Char) = '\n') := by decide
        rw [if_neg hn]
        exact ih true 0 (fun _ => rfl) h
      | true =>
        show okNL j (collapseWsAux true rest) = true
        have hj : j = 0 := hbj rfl
        subst hj
        exact ih true 0 (fun _ => rfl) h
    · rw [if_neg hc]
      rw [okNL_cons]
      by_cases hcn : c = '\n'
      · rw [if_pos hcn] at h ⊢
        simp only [Bool.and_eq_true, decide_eq_true_eq] at h ⊢
        exact ⟨h.1, ih false (j + 1) (by simp) h.2⟩
      · rw [if_neg hcn] at h ⊢
        exact ih false 0 (by simp) h

theorem okNL_dropWhile (p : Char → Bool) : ∀ (l : Str) (j : Nat),
    okNL j l = true → okNL 0 (l.dropWhile p) = true := by
  intro l
  induction l with
  | nil => intro j _; rfl
  | cons c rest ih =>
    intro j h
    rw [List.dropWhile_cons]
    by_cases hp : p c = true
    · rw [if_pos hp]
      rw [okNL_cons] at h
      by_cases hcn : c = '\n'
      · rw [if_pos hcn] at h
        simp only [Bool.and_eq_true, decide_eq_true_eq] at h
        exact ih (j + 1) h.2
      · rw [if_neg hcn] at h
        exact ih 0 h
    · rw [if_neg hp]
      exact okNL_mono _ 0 j (Nat.zero_le j) h

theorem okNL_dropTrailing (p : Char → Bool) : ∀ (l : Str) (j : Nat),
    okNL j l = true → okNL j (dropTrailing p l) = true := by
  intro l
  induction l with
  | nil => intro j _; rfl
  | cons c rest ih =>
    intro j h
    rw [okNL_cons] at h
    show okNL j (if dropTrailing p rest = [] && p c then [] else c :: dropTrailing p rest) = true
    by_cases hder : (dropTrailing p rest = [] && p c) = true
    · rw [if_pos hder]; rfl
    · rw [if_neg hder]
      rw [okNL_cons]
      by_cases hcn : c = '\n'
      · rw [if_pos hcn] at h ⊢
        simp only [Bool.and_eq_true, decide_eq_true_eq] at h ⊢
        exact ⟨h.1, ih (j + 1) h.2⟩
      · rw [if_neg hcn] at h ⊢
        exact ih 0 h

theorem okWs_dropWhile (p : Char → Bool) : ∀ (l : Str) (b : Bool),
    okWs b l = true → okWs false (l.dropWhile p) = true := by
  intro l
  induction l with
  | nil => intro b _; rfl
  | cons c rest ih =>
    intro b h
    rw [List.dropWhile_cons]
    rw [okWs_cons] at h
    by_cases hp : p c = true
    · rw [if_pos hp]
      by_cases hc : isHWs c = true
      · rw [if_pos hc] at h
        simp only [Bool.and_eq_true] at h
        exact ih true h.2
      · rw [if_neg hc] at h
        exact ih false h
    · rw [if_neg hp]
      rw [okWs_cons]
      by_cases hc : isHWs c = true
      · rw [if_pos hc] at h ⊢
        simp only [Bool.and_eq_true, Bool.not_eq_true'] at h ⊢
        exact ⟨⟨h.1.1, trivial⟩, h.2⟩
      · rw [if_neg hc] at h ⊢
        exact h

theorem okWs_dropTrailing (p : Char → Bool) : ∀ (l : Str) (b : Bool),
    okWs b l = true → okWs b (dropTrailing p l) = true := by
  intro l
  induction l with
  | nil => intro b _; rfl
  | cons c rest ih =>
    intro b h
    rw [okWs_cons] at h
    show okWs b (if dropTrailing p rest = [] && p c then [] else c :: dropTrailing p rest) = true
    by_cases hder : (dropTrailing p rest = [] && p c) = true
    · rw [if_pos hder]; rfl
    · rw [if_neg hder]
      rw [okWs_cons]
      by_cases hc : isHWs c = true
      · rw [if_pos hc] at h ⊢
        simp only [Bool.and_eq_true] at h ⊢
        exact ⟨h.1, ih true h.2⟩
      · rw [if_neg hc] at h ⊢
        exact ih false h

theorem dropWhile_idem (p : Char → Bool) : ∀ (l : Str),
    (l.dropWhile p).dropWhile p = l.dropWhile p := by
  intro l
  induction l with
  | nil => rfl
  | cons c rest ih =>
    rw [List.dropWhile_cons]
    by_cases hp : p c = true
    · rw [if_pos hp]; exact ih
    · rw [if_neg hp]
      rw [List.dropWhile_cons, if_neg hp]

theorem dropTrailing_idem (p : Char → Bool) : ∀ (l : Str),
    dropTrailing p (dropTrailing p l) = dropTrailing p l := by
  intro l
  induction l with
  | nil => rfl
  | cons c rest ih =>
    show dropTrailing p (if dropTrailing p rest = [] && p c then [] else c :: dropTrailing p rest)
        = (if dropTrailing p rest = [] && p c then [] else c :: dropTrailing p rest)
    by_cases hder : (dropTrailing p rest = [] && p c) = true
    · rw [if_pos hder]; rfl
    · rw [if_neg hder]
      show (if dropTrailing p (dropTrailing p rest) = [] && p c then []
            else c :: dropTrailing p (dropTrailing p rest))
          = c :: dropTrailing p rest
      rw [ih]
      rw [if_neg hder]

theorem dropWhile_len_le (p : Char → Bool) : ∀ l : Str,
    (l.dropWhile p).length ≤ l.length := by
  intro l
  induction l with
  | nil => exact Nat.le_refl 0
  | cons c rest ih =>
    rw [List.dropWhile_cons]
    by_cases hp : p c = true
    · rw [if_pos hp]
      exact Nat.le_trans ih (Nat.le_succ _)
    · rw [if_neg hp]

theorem dropWhile_dropTrailing_fix (p : Char → Bool) (l : Str)
    (h : l.dropWhile p = l) : (dropTrailing p l).dropWhile p = dropTrailing p l := by
  cases l with
  | nil => rfl
  | cons c rest =>
    have hp : ¬ (p c = true) := by
      intro hp
      rw [List.dropWhile_cons, if_pos hp] at h
      have := dropWhile_len_le p rest
      have h2 : (List.dropWhile p rest).length = (c :: rest).length := by rw [h]
      simp at h2
      omega
    show (if dropTrailing p rest = [] && p c then [] else c :: dropTrailing p rest).dropWhile p
        = (if dropTrailing p rest = [] && p c then [] else c :: dropTrailing p rest)
    by_cases hder : (dropTrailing p rest = [] && p c) = true
    · rw [if_pos hder]; rfl
    · rw [if_neg hder]
      rw [List.dropWhile_cons, if_neg hp]

theorem pyStrip_fixL (l : Str) : (pyStrip l).dropWhile isPyWs = pyStrip l := by
  unfold pyStrip
  exact dropWhile_dropTrailing_fix isPyWs _ (dropWhile_idem isPyWs l)

theorem pyStrip_fixR (l : Str) : dropTrailing isPyWs (pyStrip l) = pyStrip l := by
  unfold pyStrip
  exact dropTrailing_idem isPyWs _

theorem okNL_normalize (x : Str) : okNL 0 (normalize_spaces x) = true := by
  unfold normalize_spaces pyStrip collapseWs collapseNL
  apply okNL_dropTrailing
  apply okNL_dropWhile _ _ 0
  apply okNL_collapseWsAux_pres _ false 0 (by simp)
  have := okNL_collapseNLAux x 0
  simpa using this

theorem okWs_normalize (x : Str) : okWs false (normalize_spaces x) = true := by
  unfold normalize_spaces pyStrip collapseWs
  apply okWs_dropTrailing
  apply okWs_dropWhile _ _ false
  exact okWs_collapseWsAux _ false

/-- C6: normalize_spaces is idempotent: applying it twice yields the same
result as applying it once, for every input string. -/
theorem normalize_spaces_idempotent (x : Str) :
    normalize_spaces (normalize_spaces x) = normalize_spaces x := by
  have hNL := okNL_normalize x
  have hWs := okWs_normalize x
  show pyStrip (collapseWs (collapseNL (normalize_spaces x))) = normalize_spaces x
  rw [show collapseNL (normalize_spaces x) = normalize_spaces x from
    collapseNLAux_id _ 0 hNL]
  rw [show collapseWs (normalize_spaces x) = normalize_spaces x from
    collapseWsAux_id _ false hWs]
  show dropTrailing isPyWs ((normalize_spaces x).dropWhile isPyWs) = normalize_spaces x
  rw [show (normalize_spaces x).dropWhile isPyWs = normalize_spaces x from pyStrip_fixL _]
  exact pyStrip_fixR _

/-!
Section scoring and selection: `choose_important_section`.

Scores are modeled as rationals; the Python code computes the same formula in
floating point. `scored.sort(reverse=True)` sorts the (score, idx, title,
content) tuples in descending lexicographic order; since the idx components
produced by `enumerate` are pairwise distinct, the tuple comparison never
reaches the title/content components, so the order is fully determined by
(score, idx) and is embedded as the total relation `sortGE` below, with the
stable `insertionSort` standing in for Python's stable sort.
-/

/-- Word count: len(s.split()) in Python, the number of maximal nonempty runs
of non-whitespace characters. `inw` records whether the previous character was
part of a word. -/
def wcAux : Bool → Str → Nat
  | _, [] => 0
  | inw, c :: rest =>
    if isPyWs c then wcAux false rest
    else (if inw then 0 else 1) + wcAux true rest

/-- len(s.split()) from the source. -/
def wordCount (l : Str) : Nat := wcAux false l

/-- Occurrence of `pat` at the head of the text. -/
def startsWith : Str → Str → Bool
  | [], _ => true
  | _ :: _, [] => false
  | p :: ps, c :: cs => p = c && startsWith ps cs

/-- Python substring test `pat in txt`: `pat` occurs contiguously in `txt`. -/
def containsSeq (pat : Str) : Str → Bool
  | [] => startsWith pat []
  | c :: cs => startsWith pat (c :: cs) || containsSeq pat cs

/-- The fixed keyword list KEYWORDS of choose_important_section. -/
def KEYWORDS : List Str :=
  ["introduction".toList, "preface".toList, "foreword".toList, "self-reliance".toList,
   "character".toList, "discipline".toList, "habit".toList, "leadership".toList,
   "strategy".toList, "decision".toList, "time".toList, "focus".toList, "resolve".toList,
   "courage".toList, "thought and character".toList, "purpose".toList, "planning".toList]

/-- One element of the Python list `scored`: the tuple (score, idx, title, content). -/
structure SEntry where
  score : ℚ
  idx : Nat
  title : Str
  content : Str
deriving DecidableEq

/-- length_score: starts at 1.0, penalized proportionally below 220 or above
900 words (target_low, target_high in the source). -/
def lengthScore (words : Nat) : ℚ :=
  if words < 220 then 1 - ((220 : ℚ) - words) / 220
  else if words > 900 then 1 - ((words : ℚ) - 900) / 900
  else 1

/-- t = (title + newline + content[:300]).lower(); Char.toLower is the ASCII
case fold that Python's str.lower performs on ASCII text. -/
def kwText (title content : Str) : Str :=
  (title ++ '\n' :: content.take 300).map Char.toLower

/-- kw_score accumulation loop: 0.7 added for every keyword contained in `t`. -/
def kwScoreLoop (t : Str) : ℚ :=
  KEYWORDS.foldl (fun acc kw => if containsSeq kw t then acc + 7/10 else acc) 0

/-- pos_score = max(0.0, 0.5 - idx * 0.03). -/
def posScore (idx : Nat) : ℚ := max 0 (1/2 - (idx : ℚ) * (3/100))

/-- The scored tuple built for a section at position idx. -/
def scoreEntry (idx : Nat) (title content : Str) : SEntry :=
  { score := lengthScore (wordCount content) + kwScoreLoop (kwText title content) + posScore idx
    idx := idx
    title := title
    content := content }

/-- scored = [(score, idx, title, content) for idx, (title, content) in enumerate(chunks)]. -/
def scoredList (chunks : List (Str × Str)) : List SEntry :=
  chunks.enum.map (fun p => scoreEntry p.1 p.2.1 p.2.2)

/-- Descending tuple order of scored.sort(reverse=True), restricted to the
(score, idx) components that always decide the comparison. -/
def sortGE (a b : SEntry) : Prop :=
  b.score < a.score ∨ (a.score = b.score ∧ b.idx ≤ a.idx)

instance : DecidableRel sortGE := fun a b => by
  unfold sortGE
  infer_instance

instance : IsTotal SEntry sortGE where
  total a b := by
    unfold sortGE
    rcases lt_trichotomy a.score b.score with h | h | h
    · exact Or.inr (Or.inl h)
    · rcases Nat.le_total b.idx a.idx with hi | hi
      · exact Or.inl (Or.inr ⟨h, hi⟩)
      · exact Or.inr (Or.inr ⟨h.symm, hi⟩)
    · exact Or.inl (Or.inl h)

instance : IsTrans SEntry sortGE where
  trans a b c hab hbc := by
    unfold sortGE at hab hbc ⊢
    rcases hab with h1 | ⟨h1, h1i⟩
    · rcases hbc with h2 | ⟨h2, _⟩
      · exact Or.inl (lt_trans h2 h1)
      · exact Or.inl (h2 ▸ h1)
    · rcases hbc with h2 | ⟨h2, h2i⟩
      · exact Or.inl (h1 ▸ h2)
      · exact Or.inr ⟨h1.trans h2, le_trans h2i h1i⟩

/-- scored.sort(reverse=True): the ranked candidate list. -/
def rankedList (chunks : List (Str × Str)) : List SEntry :=
  (scoredList chunks).insertionSort sortGE

/-- Python single-character split s.split(sep) keeping empty parts. -/
def splitChar (sep : Char) : Str → List Str
  | [] => [[]]
  | c :: rest =>
    if c = sep then [] :: splitChar sep rest
    else
      match splitChar sep rest with
      | [] => [[c]]
      | s :: ss => (c :: s) :: ss

/-- paras = [p.strip() for p in content.split("\n") if p.strip()]. -/
def paragraphsOf (content : Str) : List Str :=
  ((splitChar '\n' content).map pyStrip).filter (fun p => !p.isEmpty)

/-- The greedy accumulation loop: for p in paras, break before a paragraph that
would push the running word count past 580 unless the buffer is still empty. -/
def trimGo : List Str → List Str → Nat → List Str
  | [], sel, _ => sel
  | p :: rest, sel, wcount =>
    if wcount + wordCount p > 580 ∧ sel ≠ [] then sel
    else trimGo rest (sel ++ [p]) (wcount + wordCount p)

/-- sel as computed for one candidate section. -/
def trimSel (content : Str) : List Str := trimGo (paragraphsOf content) [] 0

/-- Python "\n\n".join(parts). -/
def joinBlank : List Str → Str
  | [] => []
  | [p] => p
  | p :: rest => p ++ '\n' :: '\n' :: joinBlank rest

/-- chosen = "\n\n".join(sel).strip() for one candidate section. -/
def chosenOf (content : Str) : Str := pyStrip (joinBlank (trimSel content))

/-- The candidate loop of choose_important_section: first ranked entry whose
trimmed text reaches 220 words is returned. -/
def selectGo : List SEntry → Option (Str × Str)
  | [] => none
  | e :: rest =>
    if 220 ≤ wordCount (chosenOf e.content) then some (e.title, chosenOf e.content)
    else selectGo rest

/-- choose_important_section from the source. On an empty chunks list the
Python code would raise an IndexError at chunks[0], modeled as `none`. -/
def choose_important_section (chunks : List (Str × Str)) : Option (Str × Str) :=
  match selectGo (rankedList chunks) with
  | some r => some r
  | none =>
    match chunks with
    | [] => none
    | (title, content) :: _ => some (title, content.take 1200)

/-- Acceptance test of the candidate loop: the trimmed text reaches 220 words. -/
def accept220 (e : SEntry) : Bool := decide (220 ≤ wordCount (chosenOf e.content))

theorem selectGo_eq_find : ∀ l : List SEntry,
    selectGo l = (l.find? accept220).map (fun e => (e.title, chosenOf e.content)) := by
  intro l
  induction l with
  | nil => rfl
  | cons e rest ih =>
    show (if 220 ≤ wordCount (chosenOf e.content) then some (e.title, chosenOf e.content)
          else selectGo rest) = _
    by_cases h : 220 ≤ wordCount (chosenOf e.content)
    · rw [if_pos h, List.find?_cons_of_pos _ (by simpa [accept220] using h)]
      rfl
    · rw [if_neg h, List.find?_cons_of_neg _ (by simpa [accept220] using h)]
      exact ih

/-- Sum of the word counts of a list of paragraphs (the wcount variable). -/
def sumW (l : List Str) : Nat := (l.map wordCount).sum

theorem sumW_nil : sumW [] = 0 := rfl

theorem sumW_cons (p : Str) (l : List Str) : sumW (p :: l) = wordCount p + sumW l := by
  unfold sumW
  rw [List.map_cons, List.sum_cons]

theorem trimGo_spec : ∀ (paras sel : List Str) (w : Nat),
    ∃ k, k ≤ paras.length ∧ trimGo paras sel w = sel ++ paras.take k ∧
      (sel = [] → paras ≠ [] → 1 ≤ k) ∧
      (∀ j, j < k → (sel ≠ [] ∨ 0 < j) →
        w + sumW (paras.take j) + wordCount (paras.getD j []) ≤ 580) ∧
      (k < paras.length → 580 < w + sumW (paras.take k) + wordCount (paras.getD k [])) := by
  intro paras
  induction paras with
  | nil =>
    intro sel w
    refine ⟨0, Nat.le_refl 0, ?_, ?_, ?_, ?_⟩
    · show sel = sel ++ []
      rw [List.append_nil]
    · intro _ hne; exact absurd rfl hne
    · intro j hj _; omega
    · intro h; simp at h
  | cons p rest ih =>
    intro sel w
    by_cases hbr : (w + wordCount p > 580 ∧ sel ≠ [])
    · refine ⟨0, Nat.zero_le _, ?_, ?_, ?_, ?_⟩
      · show trimGo (p :: rest) sel w = sel ++ []
        rw [List.append_nil]
        show (if w + wordCount p > 580 ∧ sel ≠ [] then sel
              else trimGo rest (sel ++ [p]) (w + wordCount p)) = sel
        rw [if_pos hbr]
      · intro hsel _; exact absurd hsel hbr.2
      · intro j hj _; omega
      · intro _
        show 580 < w + sumW [] + wordCount p
        rw [sumW_nil]
        omega
    · obtain ⟨k, hk1, hk2, _, hk4, hk5⟩ := ih (sel ++ [p]) (w + wordCount p)
      refine ⟨k + 1, by simpa using Nat.succ_le_succ hk1, ?_, ?_, ?_, ?_⟩
      · show trimGo (p :: rest) sel w = sel ++ (p :: rest).take (k + 1)
        show (if w + wordCount p > 580 ∧ sel ≠ [] then sel
              else trimGo rest (sel ++ [p]) (w + wordCount p)) = _
        rw [if_neg hbr, hk2, List.take_succ_cons, List.append_assoc]
        rfl
      · intro _ _; omega
      · intro j hj hside
        match j with
        | 0 =>
          show w + sumW [] + wordCount p ≤ 580
          rw [sumW_nil]
          have hsel : sel ≠ [] := by
            rcases hside with h | h
            · exact h
            · omega
          by_contra hgt
          exact hbr ⟨by omega, hsel⟩
        | Nat.succ j' =>
          have := hk4 j' (by omega) (Or.inl (by simp))
          show w + sumW ((p :: rest).take (j' + 1)) + wordCount ((p :: rest).getD (j' + 1) []) ≤ 580
          rw [List.take_succ_cons, sumW_cons]
          show w + (wordCount p + sumW (rest.take j')) + wordCount (rest.getD j' []) ≤ 580
          omega
      · intro hlt
        have := hk5 (by simpa using Nat.lt_of_succ_lt_succ hlt)
        show 580 < w + sumW ((p :: rest).take (k + 1)) + wordCount ((p :: rest).getD (k + 1) [])
        rw [List.take_succ_cons, sumW_cons]
        show 580 < w + (wordCount p + sumW (rest.take k)) + wordCount (rest.getD k [])
        omega

/-- C1: for a non-empty chunks list, choose_important_section returns the
title and trimmed content of the first candidate, in ranked (score-descending)
order, whose trimmed content reaches 220 words; and when no candidate does,
it returns the first section's title with the first 1200 characters of its raw
content, unconditionally. Moreover in the first case the returned content has
at least 220 words. -/
theorem choose_eq (chunks : List (Str × Str)) :
    choose_important_section chunks =
      match (rankedList chunks).find? accept220 with
      | some e => some (e.title, chosenOf e.content)
      | none =>
        match chunks with
        | [] => none
        | (t, c) :: _ => some (t, c.take 1200) := by
  unfold choose_important_section
  rw [selectGo_eq_find]
  cases (rankedList chunks).find? accept220 with
  | some e => rfl
  | none =>
    cases chunks with
    | nil => rfl
    | cons hd tl =>
      obtain ⟨t0, c0⟩ := hd
      rfl

theorem choose_first_acceptable (chunks : List (Str × Str)) (t c : Str)
    (hhead : chunks.head? = some (t, c)) :
    choose_important_section chunks =
      some (match (rankedList chunks).find? accept220 with
        | some e => (e.title, chosenOf e.content)
        | none => (t, c.take 1200)) ∧
    ∀ e, (rankedList chunks).find? accept220 = some e →
      ∃ r, choose_important_section chunks = some r ∧ 220 ≤ wordCount r.2 := by
  constructor
  · rw [choose_eq]
    cases hf : (rankedList chunks).find? accept220 with
    | some e => rfl
    | none =>
      cases chunks with
      | nil => exact absurd hhead (by simp)
      | cons hd tl =>
        obtain ⟨t0, c0⟩ := hd
        have hpair : (t0, c0) = (t, c) := by simpa using hhead
        rw [show t0 = t from congrArg Prod.fst hpair, show c0 = c from congrArg Prod.snd hpair]
  · intro e hf
    refine ⟨(e.title, chosenOf e.content), ?_, ?_⟩
    · rw [choose_eq, hf]
    · have := List.find?_some hf
      simpa [accept220] using this

/-- C4: when a candidate section has at least one non-empty paragraph, the
greedy trimming loop keeps an order-preserving prefix of the paragraph list of
length k ≥ 1: every paragraph added after the first kept the running word
count at or below 580, the loop stopped exactly before a paragraph that would
have pushed it past 580 (when it stopped early), and the buffer always
contains at least the first paragraph. -/
theorem trim_always_keeps_first (content : Str) (h : paragraphsOf content ≠ []) :
    ∃ k, 1 ≤ k ∧ k ≤ (paragraphsOf content).length ∧
      trimSel content = (paragraphsOf content).take k ∧
      (∀ j, 0 < j → j < k →
        sumW ((paragraphsOf content).take j)
          + wordCount ((paragraphsOf content).getD j []) ≤ 580) ∧
      (k < (paragraphsOf content).length →
        580 < sumW ((paragraphsOf content).take k)
          + wordCount ((paragraphsOf content).getD k [])) ∧
      (trimSel content).head? = (paragraphsOf content).head? := by
  obtain ⟨k, hk1, hk2, hk3, hk4, hk5⟩ := trimGo_spec (paragraphsOf content) [] 0
  have hk0 : 1 ≤ k := hk3 rfl h
  have heq : trimSel content = (paragraphsOf content).take k := by
    show trimGo (paragraphsOf content) [] 0 = _
    rw [hk2]
    rfl
  refine ⟨k, hk0, hk1, heq, ?_, ?_, ?_⟩
  · intro j hj0 hjk
    have := hk4 j hjk (Or.inr hj0)
    omega
  · intro hlt
    have := hk5 hlt
    omega
  · rw [heq]
    cases hp : paragraphsOf content with
    | nil => exact absurd hp h
    | cons q qs =>
      match k, hk0 with
      | Nat.succ k', _ =>
        rw [List.take_succ_cons]
        rfl

theorem dropWhile_fix_head (p : Char → Bool) (c : Char) (rest : Str)
    (h : (c :: rest).dropWhile p = c :: rest) : p c = false := by
  by_contra hp
  have hp2 : p c = true := by
    cases hpc : p c
    · exact absurd hpc hp
    · rfl
  rw [List.dropWhile_cons, if_pos hp2] at h
  have := dropWhile_len_le p rest
  have h2 : (List.dropWhile p rest).length = (c :: rest).length := by rw [h]
  simp at h2
  omega

theorem pyStrip_idem (l : Str) : pyStrip (pyStrip l) = pyStrip l := by
  show dropTrailing isPyWs ((pyStrip l).dropWhile isPyWs) = pyStrip l
  rw [pyStrip_fixL]
  exact pyStrip_fixR l

theorem dropWhile_fix_append (p : Char → Bool) (a b : Str) (ha : a ≠ [])
    (hfix : a.dropWhile p = a) : (a ++ b).dropWhile p = a ++ b := by
  cases a with
  | nil => exact absurd rfl ha
  | cons c rest =>
    have hc := dropWhile_fix_head p c rest hfix
    rw [List.cons_append, List.dropWhile_cons, if_neg (by simp [hc])]

theorem dropTrailing_fix_append (p : Char → Bool) (b : Str) (hb : b ≠ [])
    (hfix : dropTrailing p b = b) : ∀ a : Str, dropTrailing p (a ++ b) = a ++ b := by
  intro a
  induction a with
  | nil => simpa using hfix
  | cons c arest ih =>
    show (if dropTrailing p (arest ++ b) = [] && p c then []
          else c :: dropTrailing p (arest ++ b)) = c :: (arest ++ b)
    rw [ih]
    have hne : ¬ (arest ++ b = []) := by
      intro hcontra
      exact hb (List.append_eq_nil.mp hcontra).2
    rw [if_neg (by simp [hne])]

theorem joinBlank_cons (q : Str) (rest : List Str) :
    joinBlank (q :: rest) =
      q ++ (match rest with | [] => [] | _ :: _ => '\n' :: '\n' :: joinBlank rest) := by
  cases rest with
  | nil => show q = q ++ []; rw [List.append_nil]
  | cons r rs => rfl

theorem joinBlank_ne_nil (q : Str) (rest : List Str) (hq : q ≠ []) :
    joinBlank (q :: rest) ≠ [] := by
  rw [joinBlank_cons]
  intro hcontra
  exact hq (List.append_eq_nil.mp hcontra).1

theorem pyStrip_joinBlank (sel : List Str)
    (hsel : sel ≠ []) (helts : ∀ q ∈ sel, q ≠ [] ∧ ∃ x, q = pyStrip x) :
    pyStrip (joinBlank sel) = joinBlank sel := by
  show dropTrailing isPyWs ((joinBlank sel).dropWhile isPyWs) = joinBlank sel
  have hL : (joinBlank sel).dropWhile isPyWs = joinBlank sel := by
    cases sel with
    | nil => exact absurd rfl hsel
    | cons q rest =>
      obtain ⟨hq, x, hx⟩ := helts q (by simp)
      rw [joinBlank_cons]
      apply dropWhile_fix_append isPyWs q _ hq
      rw [hx]
      exact pyStrip_fixL x
  rw [hL]
  clear hL
  induction sel with
  | nil => exact absurd rfl hsel
  | cons q rest ih =>
    obtain ⟨hq, x, hx⟩ := helts q (by simp)
    cases rest with
    | nil =>
      show dropTrailing isPyWs (joinBlank [q]) = joinBlank [q]
      show dropTrailing isPyWs q = q
      rw [hx]
      exact pyStrip_fixR x
    | cons r rs =>
      obtain ⟨hr, y, hy⟩ := helts r (by simp)
      have hb : dropTrailing isPyWs (joinBlank (r :: rs)) = joinBlank (r :: rs) :=
        ih (by simp) (fun p hp => helts p (by simp [hp]))
      have hbne : joinBlank (r :: rs) ≠ [] := joinBlank_ne_nil r rs hr
      have := dropTrailing_fix_append isPyWs (joinBlank (r :: rs)) hbne hb
        (q ++ ['\n', '\n'])
      calc dropTrailing isPyWs (joinBlank (q :: r :: rs))
          = dropTrailing isPyWs ((q ++ ['\n', '\n']) ++ joinBlank (r :: rs)) := by
            show dropTrailing isPyWs (q ++ '\n' :: '\n' :: joinBlank (r :: rs)) = _
            rw [List.append_assoc]
            rfl
        _ = (q ++ ['\n', '\n']) ++ joinBlank (r :: rs) := this
        _ = joinBlank (q :: r :: rs) := by
            rw [List.append_assoc]
            rfl

/-- The scored tuple of the section at position i of chunks. -/
def entryAt (chunks : List (Str × Str)) (i : Nat) : SEntry :=
  scoreEntry i (chunks.getD i ([], [])).1 (chunks.getD i ([], [])).2

theorem mem_scored_from : ∀ (chunks : List (Str × Str)) (n : Nat) (e : SEntry),
    e ∈ (chunks.enumFrom n).map (fun p => scoreEntry p.1 p.2.1 p.2.2) →
    ∃ i, i < chunks.length ∧
      e = scoreEntry (n + i) (chunks.getD i ([], [])).1 (chunks.getD i ([], [])).2 := by
  intro chunks
  induction chunks with
  | nil => intro n e h; simp [List.enumFrom] at h
  | cons hd tl ih =>
    intro n e h
    rw [show (hd :: tl).enumFrom n = (n, hd) :: tl.enumFrom (n + 1) from rfl,
      List.map_cons, List.mem_cons] at h
    rcases h with h | h
    · exact ⟨0, by simp, by simpa using h⟩
    · obtain ⟨i, hi, hei⟩ := ih (n + 1) e h
      refine ⟨i + 1, by simpa using Nat.succ_lt_succ hi, ?_⟩
      rw [hei]
      have harith : n + 1 + i = n + (i + 1) := by omega
      rw [harith]
      rfl

theorem scored_from_mem : ∀ (chunks : List (Str × Str)) (n : Nat) (i : Nat),
    i < chunks.length →
    scoreEntry (n + i) (chunks.getD i ([], [])).1 (chunks.getD i ([], [])).2 ∈
      (chunks.enumFrom n).map (fun p => scoreEntry p.1 p.2.1 p.2.2) := by
  intro chunks
  induction chunks with
  | nil => intro n i h; simp at h
  | cons hd tl ih =>
    intro n i h
    rw [show (hd :: tl).enumFrom n = (n, hd) :: tl.enumFrom (n + 1) from rfl, List.map_cons,
      List.mem_cons]
    match i with
    | 0 =>
      left
      have : n + 0 = n := by omega
      rw [this]
      rfl
    | Nat.succ i' =>
      right
      have harith : n + (i' + 1) = n + 1 + i' := by omega
      rw [harith]
      exact ih (n + 1) i' (by simpa using Nat.lt_of_succ_lt_succ h)

theorem scoredList_mem (chunks : List (Str × Str)) (e : SEntry)
    (h : e ∈ scoredList chunks) :
    e.idx < chunks.length ∧ e = entryAt chunks e.idx := by
  obtain ⟨i, hi, hei⟩ := mem_scored_from chunks 0 e h
  have hidx : e.idx = i := by
    rw [hei]
    show 0 + i = i
    omega
  rw [hidx, hei]
  have : (0 : Nat) + i = i := by omega
  rw [this]
  exact ⟨hi, rfl⟩

theorem entryAt_mem_scoredList (chunks : List (Str × Str)) (i : Nat)
    (h : i < chunks.length) : entryAt chunks i ∈ scoredList chunks := by
  have := scored_from_mem chunks 0 i h
  have h0 : (0 : Nat) + i = i := by omega
  rw [h0] at this
  exact this

theorem getD_mem_of_lt : ∀ (l : List (Str × Str)) (i : Nat), i < l.length →
    l.getD i ([], []) ∈ l := by
  intro l
  induction l with
  | nil => intro i h; simp at h
  | cons hd tl ih =>
    intro i h
    match i with
    | 0 => exact List.mem_cons_self hd tl
    | Nat.succ i' =>
      exact List.mem_cons_of_mem hd (ih i' (by simpa using Nat.lt_of_succ_lt_succ h))

/-- C10: whenever the selection succeeds without falling back, the returned
content is exactly the first k non-empty whitespace-stripped paragraphs of the
chosen section's content for some k ≥ 1, in their original order, joined by
blank lines: no paragraph is skipped, reordered or truncated. -/
theorem nonfallback_content_is_paragraph_prefix (chunks : List (Str × Str)) (e : SEntry)
    (hfind : (rankedList chunks).find? accept220 = some e) :
    (e.title, e.content) ∈ chunks ∧
    ∃ k, 1 ≤ k ∧ (paragraphsOf e.content).take k ≠ [] ∧
      choose_important_section chunks =
        some (e.title, joinBlank ((paragraphsOf e.content).take k)) := by
  have hmem : e ∈ scoredList chunks := by
    have := List.mem_of_find?_eq_some hfind
    simpa [rankedList] using this
  obtain ⟨hlt, he⟩ := scoredList_mem chunks e hmem
  constructor
  · have hm := getD_mem_of_lt chunks e.idx hlt
    have ht : e.title = (chunks.getD e.idx ([], [])).1 := by rw [he]; rfl
    have hc : e.content = (chunks.getD e.idx ([], [])).2 := by rw [he]; rfl
    rw [ht, hc]
    simpa using hm
  · have hacc : 220 ≤ wordCount (chosenOf e.content) := by
      have := List.find?_some hfind
      simpa [accept220] using this
    have hpar : paragraphsOf e.content ≠ [] := by
      intro hnil
      rw [show chosenOf e.content = pyStrip (joinBlank (trimGo (paragraphsOf e.content) [] 0))
        from rfl, hnil] at hacc
      simp [trimGo, joinBlank, pyStrip, dropTrailing, List.dropWhile, wordCount, wcAux] at hacc
    obtain ⟨k, hk1, hk2, hk3, _, _⟩ := trimGo_spec (paragraphsOf e.content) [] 0
    have hkpos : 1 ≤ k := hk3 rfl hpar
    have htrim : trimSel e.content = (paragraphsOf e.content).take k := by
      show trimGo (paragraphsOf e.content) [] 0 = _
      rw [hk2]
      rfl
    have htake : (paragraphsOf e.content).take k ≠ [] := by
      cases hp : paragraphsOf e.content with
      | nil => exact absurd hp hpar
      | cons q qs =>
        match k, hkpos with
        | Nat.succ k', _ =>
          rw [List.take_succ_cons]
          simp
    have hstrip : chosenOf e.content = joinBlank ((paragraphsOf e.content).take k) := by
      show pyStrip (joinBlank (trimSel e.content)) = _
      rw [htrim]
      apply pyStrip_joinBlank _ htake
      intro q hq
      have hqmem : q ∈ paragraphsOf e.content := List.mem_of_mem_take hq
      unfold paragraphsOf at hqmem
      rw [List.mem_filter] at hqmem
      obtain ⟨hqmap, hqne⟩ := hqmem
      obtain ⟨x, _, hx⟩ := List.mem_map.mp hqmap
      constructor
      · intro hqnil
        rw [hqnil] at hqne
        simp at hqne
      · exact ⟨x, hx.symm⟩
    refine ⟨k, hkpos, htake, ?_⟩
    rw [choose_eq, hfind]
    show some (e.title, chosenOf e.content) = _
    rw [hstrip]

/-- C2 (amended): when two sections have equal total scores, the LATER section
(higher index) is ranked first in the candidate ordering: scored.sort(reverse=True)
reverses the lexicographic tuple order, so among equal scores the larger idx
comes first. -/
theorem equal_scores_higher_index_ranked_first (chunks : List (Str × Str)) (i j : Nat)
    (hij : i < j) (hj : j < chunks.length)
    (hscore : (entryAt chunks i).score = (entryAt chunks j).score) :
    (rankedList chunks).indexOf (entryAt chunks j) <
      (rankedList chunks).indexOf (entryAt chunks i) := by
  have hi : i < chunks.length := lt_trans hij hj
  have hmi : entryAt chunks i ∈ rankedList chunks := by
    simpa [rankedList] using entryAt_mem_scoredList chunks i hi
  have hmj : entryAt chunks j ∈ rankedList chunks := by
    simpa [rankedList] using entryAt_mem_scoredList chunks j hj
  have hne : entryAt chunks i ≠ entryAt chunks j := by
    intro hcontra
    have hidx : i = j := congrArg SEntry.idx hcontra
    omega
  have hpi : (rankedList chunks).indexOf (entryAt chunks i) < (rankedList chunks).length :=
    List.indexOf_lt_length.mpr hmi
  have hpj : (rankedList chunks).indexOf (entryAt chunks j) < (rankedList chunks).length :=
    List.indexOf_lt_length.mpr hmj
  have hgi : (rankedList chunks).get ⟨_, hpi⟩ = entryAt chunks i := List.indexOf_get hpi
  have hgj : (rankedList chunks).get ⟨_, hpj⟩ = entryAt chunks j := List.indexOf_get hpj
  rcases Nat.lt_trichotomy ((rankedList chunks).indexOf (entryAt chunks j))
      ((rankedList chunks).indexOf (entryAt chunks i)) with h | h | h
  · exact h
  · exfalso
    apply hne
    rw [← hgi, ← hgj]
    congr 1
    exact Fin.ext h.symm
  · exfalso
    have hsorted : (rankedList chunks).Sorted sortGE :=
      List.sorted_insertionSort sortGE (scoredList chunks)
    have hrel : sortGE ((rankedList chunks).get ⟨_, hpi⟩) ((rankedList chunks).get ⟨_, hpj⟩) :=
      hsorted.rel_get_of_lt (Fin.mk_lt_mk.mpr h)
    rw [hgi, hgj] at hrel
    rcases hrel with hlt | ⟨_, hle⟩
    · rw [hscore] at hlt
      exact lt_irrefl _ hlt
    · have : j ≤ i := hle
      omega


/-- A text of n one-letter words separated by single spaces. -/
def repWords : Nat → Str
  | 0 => []
  | 1 => ['w']
  | Nat.succ (Nat.succ n) => 'w' :: ' ' :: repWords (n + 1)

/-- Concrete chunks list whose sections 17 and 18 are identical 220-word
sections except for the title: both position scores floor at 0, so the two
total scores tie exactly (also as Python floats, which perform the identical
computations). -/
def exC2 : List (Str × Str) :=
  List.replicate 17 ("J".toList, "w".toList) ++
    [("A".toList, repWords 220), ("B".toList, repWords 220)]

/-- The scored tuple of section 17 of exC2. -/
def entryA : SEntry := scoreEntry 17 ("A".toList) (repWords 220)

/-- The scored tuple of section 18 of exC2. -/
def entryB : SEntry := scoreEntry 18 ("B".toList) (repWords 220)

theorem exC2_entry17 : entryAt exC2 17 = entryA := rfl

theorem exC2_entry18 : entryAt exC2 18 = entryB := rfl

theorem pos17_eq : posScore 17 = 0 := by
  unfold posScore
  rw [max_eq_left (by push_cast; norm_num)]

theorem pos18_eq : posScore 18 = 0 := by
  unfold posScore
  rw [max_eq_left (by push_cast; norm_num)]

theorem pos_le_half (m : Nat) : posScore m ≤ 1 / 2 := by
  unfold posScore
  apply max_le
  · norm_num
  · have h0 : (0 : ℚ) ≤ (m : ℚ) * (3 / 100) := by positivity
    linarith

set_option maxRecDepth 40000

theorem scoreA_eq : entryA.score = 1 := by
  show lengthScore (wordCount (repWords 220))
      + kwScoreLoop (kwText ("A".toList) (repWords 220)) + posScore 17 = 1
  rw [show lengthScore (wordCount (repWords 220)) = 1 from rfl,
    show kwScoreLoop (kwText ("A".toList) (repWords 220)) = 0 from rfl, pos17_eq]
  norm_num

theorem scoreB_eq : entryB.score = 1 := by
  show lengthScore (wordCount (repWords 220))
      + kwScoreLoop (kwText ("B".toList) (repWords 220)) + posScore 18 = 1
  rw [show lengthScore (wordCount (repWords 220)) = 1 from rfl,
    show kwScoreLoop (kwText ("B".toList) (repWords 220)) = 0 from rfl, pos18_eq]
  norm_num

theorem scoresC2_eq : (entryAt exC2 17).score = (entryAt exC2 18).score := by
  rw [exC2_entry17, exC2_entry18, scoreA_eq, scoreB_eq]

theorem equal_scores_higher_index_witness :
    (17 < 18 ∧ 18 < exC2.length ∧ (entryAt exC2 17).score = (entryAt exC2 18).score) ∧
      (rankedList exC2).indexOf (entryAt exC2 18) <
        (rankedList exC2).indexOf (entryAt exC2 17) :=
  ⟨⟨by decide, by decide, scoresC2_eq⟩,
    equal_scores_higher_index_ranked_first exC2 17 18 (by decide) (by decide) scoresC2_eq⟩

theorem getD_replicate_append {α : Type} : ∀ (n : Nat) (x : α) (rest : List α) (m : Nat) (d : α),
    m < n → (List.replicate n x ++ rest).getD m d = x := by
  intro n
  induction n with
  | zero => intro x rest m d h; omega
  | succ n ih =>
    intro x rest m d h
    rw [List.replicate_succ, List.cons_append]
    match m with
    | 0 => rfl
    | Nat.succ m' => exact ih x rest m' d (by omega)

theorem exC2_entry_junk (m : Nat) (hm : m < 17) :
    entryAt exC2 m = scoreEntry m ("J".toList) ("w".toList) := by
  unfold entryAt exC2
  rw [getD_replicate_append 17 ("J".toList, "w".toList) _ m _ hm]

theorem junk_score_lt (m : Nat) : (scoreEntry m ("J".toList) ("w".toList)).score < 1 := by
  show lengthScore (wordCount ("w".toList))
      + kwScoreLoop (kwText ("J".toList) ("w".toList)) + posScore m < 1
  rw [show lengthScore (wordCount ("w".toList)) = 1 - ((220 : ℚ) - (1 : Nat)) / 220 from rfl,
    show kwScoreLoop (kwText ("J".toList) ("w".toList)) = 0 from rfl]
  have hp := pos_le_half m
  push_cast
  linarith

theorem no_entry_ranks_above_B : ∀ y ∈ scoredList exC2, y ≠ entryB → ¬ sortGE y entryB := by
  intro y hy hne
  obtain ⟨hidx, hform⟩ := scoredList_mem exC2 y hy
  have hlen : exC2.length = 19 := rfl
  rw [hlen] at hidx
  by_cases h17 : y.idx = 17
  · have hya : y = entryA := by rw [hform, h17]; exact exC2_entry17
    intro hcontra
    rcases hcontra with hlt | ⟨_, hle⟩
    · rw [hya, scoreA_eq, scoreB_eq] at hlt
      exact lt_irrefl 1 hlt
    · rw [hya] at hle
      exact absurd hle (by decide)
  · by_cases h18 : y.idx = 18
    · have : y = entryB := by rw [hform, h18]; exact exC2_entry18
      exact absurd this hne
    · have hm : y.idx < 17 := by omega
      have hyj : y = scoreEntry y.idx ("J".toList) ("w".toList) := by
        rw [hform]
        exact exC2_entry_junk y.idx hm
      intro hcontra
      have h1 : y.score < 1 := by
        rw [hyj]
        exact junk_score_lt y.idx
      rcases hcontra with hlt | ⟨heq, _⟩
      · rw [scoreB_eq] at hlt
        exact absurd hlt (not_lt.mpr (le_of_lt h1))
      · rw [heq, scoreB_eq] at h1
        exact lt_irrefl 1 h1

theorem sorted_head_of_max (l : List SEntry) (x : SEntry) (hs : l.Sorted sortGE)
    (hx : x ∈ l) (hmax : ∀ y ∈ l, y ≠ x → ¬ sortGE y x) : l.head? = some x := by
  cases l with
  | nil => simp at hx
  | cons h t =>
    by_cases hhx : h = x
    · rw [hhx]
      rfl
    · exfalso
      have hxt : x ∈ t := by
        rcases List.mem_cons.mp hx with h1 | h1
        · exact absurd h1.symm hhx
        · exact h1
      exact hmax h (List.mem_cons_self h t) hhx (List.rel_of_sorted_cons hs x hxt)

theorem rankedC2_head : (rankedList exC2).head? = some entryB := by
  apply sorted_head_of_max
  · exact List.sorted_insertionSort sortGE (scoredList exC2)
  · show entryB ∈ rankedList exC2
    rw [rankedList, List.mem_insertionSort, ← exC2_entry18]
    exact entryAt_mem_scoredList exC2 18 (by decide)
  · intro y hy
    rw [rankedList, List.mem_insertionSort] at hy
    exact no_entry_ranks_above_B y hy

theorem repWords_succ_ne_nil (n : Nat) : repWords (n + 1) ≠ [] := by
  cases n with
  | zero => simp [repWords]
  | succ m =>
    show ('w' :: ' ' :: repWords (m + 1)) ≠ []
    simp

theorem repWords_isEmpty_false (n : Nat) : (repWords (n + 1)).isEmpty = false := by
  cases n with
  | zero => rfl
  | succ m => rfl

theorem repWords_no_nl : ∀ n : Nat,
    (∀ c ∈ repWords n, ¬ c = '\n') ∧ (∀ c ∈ repWords (n + 1), ¬ c = '\n') := by
  intro n
  induction n with
  | zero =>
    constructor
    · intro c hc
      simp [repWords] at hc
    · intro c hc
      rw [show repWords 1 = ['w'] from rfl] at hc
      simp at hc
      subst hc
      decide
  | succ m ih =>
    refine ⟨ih.2, ?_⟩
    intro c hc
    rw [show repWords (m + 2) = 'w' :: ' ' :: repWords (m + 1) from rfl] at hc
    rcases List.mem_cons.mp hc with h | h
    · subst h; decide
    · rcases List.mem_cons.mp h with h2 | h2
      · subst h2; decide
      · exact ih.2 c h2

theorem wordCount_repWords : ∀ n : Nat,
    wordCount (repWords n) = n ∧ wordCount (repWords (n + 1)) = n + 1 := by
  intro n
  induction n with
  | zero => exact ⟨rfl, by decide⟩
  | succ m ih =>
    refine ⟨ih.2, ?_⟩
    show wcAux false ('w' :: ' ' :: repWords (m + 1)) = m + 2
    show 1 + wcAux false (repWords (m + 1)) = m + 2
    have h2 : wcAux false (repWords (m + 1)) = m + 1 := ih.2
    rw [h2]
    omega

theorem dropTrailing_repWords : ∀ n : Nat,
    dropTrailing isPyWs (repWords (n + 1)) = repWords (n + 1) := by
  intro n
  induction n with
  | zero => decide
  | succ m ih =>
    have hne := repWords_succ_ne_nil m
    have h1 : dropTrailing isPyWs (' ' :: repWords (m + 1)) = ' ' :: repWords (m + 1) := by
      show (if decide (dropTrailing isPyWs (repWords (m + 1)) = []) && isPyWs ' ' then []
            else ' ' :: dropTrailing isPyWs (repWords (m + 1))) = _
      rw [ih]
      rw [if_neg (by simp [hne])]
    show (if decide (dropTrailing isPyWs (' ' :: repWords (m + 1)) = []) && isPyWs 'w' then []
          else 'w' :: dropTrailing isPyWs (' ' :: repWords (m + 1))) = _
    rw [h1]
    rw [if_neg (by simp)]
    rfl

theorem pyStrip_repWords (n : Nat) : pyStrip (repWords (n + 1)) = repWords (n + 1) := by
  unfold pyStrip
  have hdw : (repWords (n + 1)).dropWhile isPyWs = repWords (n + 1) := by
    cases n with
    | zero => decide
    | succ m =>
      show List.dropWhile isPyWs ('w' :: ' ' :: repWords (m + 1)) = _
      rw [List.dropWhile_cons, if_neg (by decide)]
      rfl
  rw [hdw, dropTrailing_repWords]

theorem splitChar_no_sep (sep : Char) : ∀ l : Str,
    (∀ c ∈ l, ¬ c = sep) → splitChar sep l = [l] := by
  intro l
  induction l with
  | nil => intro _; rfl
  | cons c rest ih =>
    intro h
    have hc : ¬ c = sep := h c (by simp)
    have hrest := ih (fun d hd => h d (by simp [hd]))
    show (if c = sep then [] :: splitChar sep rest
          else match splitChar sep rest with
            | [] => [[c]]
            | s :: ss => (c :: s) :: ss) = [c :: rest]
    rw [if_neg hc, hrest]

theorem paragraphsOf_repWords (n : Nat) :
    paragraphsOf (repWords (n + 1)) = [repWords (n + 1)] := by
  unfold paragraphsOf
  rw [splitChar_no_sep '\n' _ (repWords_no_nl n).2, List.map_cons, List.map_nil,
    pyStrip_repWords]
  rw [List.filter_cons]
  rw [if_pos (by rw [repWords_isEmpty_false]; rfl)]
  rfl

theorem chosenOf_repWords (n : Nat) : chosenOf (repWords (n + 1)) = repWords (n + 1) := by
  unfold chosenOf trimSel
  rw [paragraphsOf_repWords]
  have htg : trimGo [repWords (n + 1)] [] 0 = [repWords (n + 1)] := by
    show (if 0 + wordCount (repWords (n + 1)) > 580 ∧ ([] : List Str) ≠ [] then ([] : List Str)
          else trimGo [] ([] ++ [repWords (n + 1)]) (0 + wordCount (repWords (n + 1)))) = _
    rw [if_neg (by simp)]
    rfl
  rw [htg]
  show pyStrip (joinBlank [repWords (n + 1)]) = _
  rw [show joinBlank [repWords (n + 1)] = repWords (n + 1) from rfl]
  exact pyStrip_repWords n

theorem chosenOf_heavy_wc : wordCount (chosenOf (repWords 220)) = 220 := by
  have h := chosenOf_repWords 219
  norm_num at h
  rw [h]
  exact (wordCount_repWords 220).1

/-- C2 counterexample: in exC2 sections 17 and 18 have exactly equal total
scores and section 17 itself clears the 220-word minimum, yet the function
returns the title of section 18 (the higher index), so the claim that among
equal-score sections the lower-index one is tried and returned first is false. -/
theorem tie_returns_higher_index_cex :
    (entryAt exC2 17).score = (entryAt exC2 18).score ∧
    220 ≤ wordCount (chosenOf (repWords 220)) ∧
    (choose_important_section exC2).map Prod.fst = some ("B".toList) ∧
    "A".toList ≠ "B".toList := by
  refine ⟨scoresC2_eq, by rw [chosenOf_heavy_wc], ?_, by decide⟩
  obtain ⟨tail, htail⟩ : ∃ tail, rankedList exC2 = entryB :: tail := by
    have h := rankedC2_head
    cases hr : rankedList exC2 with
    | nil => rw [hr] at h; simp at h
    | cons a t =>
      rw [hr] at h
      refine ⟨t, ?_⟩
      have ha : a = entryB := by simpa using h
      rw [ha]
  unfold choose_important_section
  rw [htail]
  have hacc : 220 ≤ wordCount (chosenOf entryB.content) := by
    show 220 ≤ wordCount (chosenOf (repWords 220))
    rw [chosenOf_heavy_wc]
  rw [show selectGo (entryB :: tail) = some (entryB.title, chosenOf entryB.content) from by
    show (if 220 ≤ wordCount (chosenOf entryB.content)
          then some (entryB.title, chosenOf entryB.content) else selectGo tail) = _
    rw [if_pos hacc]]
  rfl

/-- Length-fit score exactly as the claim words it: 1.0, reduced by
(220 - w)/220 below 220 words, reduced by (w - 900)/900 above 900 words,
unreduced otherwise. -/
def lengthFitSpec (w : Nat) : ℚ :=
  if w < 220 then 1 - ((220 : ℚ) - w) / 220
  else if w > 900 then 1 - ((w : ℚ) - 900) / 900
  else 1

/-- Number of keywords of the fixed list occurring (case-insensitively) in the
title followed by a newline and the first 300 characters of the content. -/
def kwCount (title content : Str) : Nat :=
  (KEYWORDS.filter (fun kw => containsSeq kw (kwText title content))).length

theorem kwScoreLoop_count : ∀ (l : List Str) (t : Str) (acc : ℚ),
    l.foldl (fun a kw => if containsSeq kw t then a + 7 / 10 else a) acc
      = acc + (7 / 10) * ((l.filter (fun kw => containsSeq kw t)).length : ℚ) := by
  intro l
  induction l with
  | nil => intro t acc; simp
  | cons kw rest ih =>
    intro t acc
    rw [List.foldl_cons, List.filter_cons]
    by_cases h : containsSeq kw t = true
    · rw [if_pos h, if_pos h, ih, List.length_cons]
      push_cast
      ring
    · rw [if_neg h, if_neg h, ih]

/-- C3: the total score of a section at index i equals length_fit + keyword +
position, with keyword contributing 0.7 per matched keyword and position
max(0, 0.5 - 0.03 i). -/
theorem score_formula (idx : Nat) (title content : Str) :
    (scoreEntry idx title content).score =
      lengthFitSpec (wordCount content)
        + (7 / 10) * (kwCount title content : ℚ)
        + max 0 ((1 : ℚ) / 2 - (idx : ℚ) * (3 / 100)) := by
  show lengthScore (wordCount content) + kwScoreLoop (kwText title content) + posScore idx = _
  rw [show kwScoreLoop (kwText title content)
    = 0 + (7 / 10) * (kwCount title content : ℚ) from kwScoreLoop_count KEYWORDS _ 0]
  rw [zero_add]
  rfl

/-- Python str.replace for a single-character needle; the source calls replace
only with the one-character needles "&", "<", ">". -/
def replaceChar (needle : Char) (repl : Str) : Str → Str
  | [] => []
  | c :: rest => (if c = needle then repl else [c]) ++ replaceChar needle repl rest

/-- safe_html from the source:
s.replace("&", "&amp;").replace("<", "&lt;").replace(">", "&gt;"). -/
def safe_html (s : Str) : Str :=
  replaceChar '>' ("&gt;".toList)
    (replaceChar '<' ("&lt;".toList)
      (replaceChar '&' ("&amp;".toList) s))

/-- Simultaneous single-pass escape: each original character is translated
exactly once, independently of its neighbors. -/
def escChar (c : Char) : Str :=
  if c = '&' then "&amp;".toList
  else if c = '<' then "&lt;".toList
  else if c = '>' then "&gt;".toList
  else [c]

/-- One-pass escaping of a whole string. -/
def escapeOnce : Str → Str
  | [] => []
  | c :: rest => escChar c ++ escapeOnce rest

theorem replaceChar_append (needle : Char) (repl : Str) : ∀ a b : Str,
    replaceChar needle repl (a ++ b)
      = replaceChar needle repl a ++ replaceChar needle repl b := by
  intro a b
  induction a with
  | nil => rfl
  | cons c rest ih =>
    show (if c = needle then repl else [c]) ++ replaceChar needle repl (rest ++ b)
        = ((if c = needle then repl else [c]) ++ replaceChar needle repl rest)
          ++ replaceChar needle repl b
    rw [ih, List.append_assoc]

/-- C8: the three sequential replacements of safe_html act as one simultaneous
pass translating each original occurrence of the three characters exactly
once: because the ampersand substitution runs first, the entities introduced
for angle brackets are never re-escaped. -/
theorem safe_html_escapes_once (s : Str) : safe_html s = escapeOnce s := by
  induction s with
  | nil => rfl
  | cons c rest ih =>
    show safe_html (c :: rest) = escChar c ++ escapeOnce rest
    have step : safe_html (c :: rest) = safe_html [c] ++ safe_html rest := by
      show replaceChar '>' ("&gt;".toList)
          (replaceChar '<' ("&lt;".toList)
            (replaceChar '&' ("&amp;".toList) ([c] ++ rest))) = _
      rw [replaceChar_append, replaceChar_append, replaceChar_append]
      rfl
    rw [step, ih]
    congr 1
    by_cases h1 : c = '&'
    · rw [h1]; rfl
    · by_cases h2 : c = '<'
      · rw [h2]; rfl
      · by_cases h3 : c = '>'
        · rw [h3]; rfl
        · have e1 : replaceChar '&' ("&amp;".toList) [c] = [c] := by
            show (if c = '&' then "&amp;".toList else [c]) ++ [] = [c]
            rw [if_neg h1, List.append_nil]
          have e2 : replaceChar '<' ("&lt;".toList) [c] = [c] := by
            show (if c = '<' then "&lt;".toList else [c]) ++ [] = [c]
            rw [if_neg h2, List.append_nil]
          have e3 : replaceChar '>' ("&gt;".toList) [c] = [c] := by
            show (if c = '>' then "&gt;".toList else [c]) ++ [] = [c]
            rw [if_neg h3, List.append_nil]
          show replaceChar '>' ("&gt;".toList)
              (replaceChar '<' ("&lt;".toList)
                (replaceChar '&' ("&amp;".toList) [c])) = escChar c
          rw [e1, e2, e3]
          unfold escChar
          rw [if_neg h1, if_neg h2, if_neg h3]

theorem choose_first_acceptable_witness :
    choose_important_section [("T".toList, "a".toList)] = some ("T".toList, "a".toList) := by
  have h := choose_first_acceptable [("T".toList, "a".toList)] ("T".toList) ("a".toList) rfl
  rw [h.1]
  decide

theorem trim_always_keeps_first_witness :
    paragraphsOf ("a".toList) ≠ [] ∧
      (trimSel ("a".toList)).head? = (paragraphsOf ("a".toList)).head? := by
  have hne : paragraphsOf ("a".toList) ≠ [] := by decide
  obtain ⟨k, _, _, _, _, _, hh⟩ := trim_always_keeps_first ("a".toList) hne
  exact ⟨hne, hh⟩

/-- Concrete single-section input whose trimmed content reaches 220 words. -/
def chunksC10 : List (Str × Str) := [("T".toList, repWords 220)]

/-- The scored tuple of the single section of chunksC10. -/
def entryT : SEntry := scoreEntry 0 ("T".toList) (repWords 220)

theorem nonfallback_witness :
    (entryT.title, entryT.content) ∈ chunksC10 ∧
      choose_important_section chunksC10 =
        some (entryT.title, joinBlank [repWords 220]) := by
  have h1 : rankedList chunksC10 = [entryT] := rfl
  have hacc : accept220 entryT = true := by
    unfold accept220
    rw [decide_eq_true_eq]
    show 220 ≤ wordCount (chosenOf (repWords 220))
    rw [chosenOf_heavy_wc]
  have hfind : (rankedList chunksC10).find? accept220 = some entryT := by
    rw [h1]
    exact List.find?_cons_of_pos _ hacc
  obtain ⟨hmem, k, hk1, _, hch⟩ := nonfallback_content_is_paragraph_prefix chunksC10 entryT hfind
  refine ⟨hmem, ?_⟩
  rw [hch]
  have hp : paragraphsOf entryT.content = [repWords 220] := by
    show paragraphsOf (repWords 220) = [repWords 220]
    have h := paragraphsOf_repWords 219
    norm_num at h
    exact h
  rw [hp]
  match k, hk1 with
  | Nat.succ k', _ =>
    rw [List.take_succ_cons, List.take_nil]

/-!
Regular-expression searches of the source, embedded as deterministic scanners.
The three patterns used by generate.py have no genuine backtracking: every
starred subpattern is followed by a token its own character class cannot
produce, so the greedy/lazy choices are forced and each search reduces to a
leftmost scan with maximal-run measurements.
-/

/-- Case-insensitive character comparison (ASCII case fold, flags=re.I). -/
def ciEq (a b : Char) : Bool := a.toLower = b.toLower

/-- pat occurs case-insensitively at the head of the text. -/
def startsWithCI : Str → Str → Bool
  | [], _ => true
  | _ :: _, [] => false
  | p :: ps, c :: cs => ciEq p c && startsWithCI ps cs

/-- Leftmost position (counted from `base`) at which pat occurs
case-insensitively in l. -/
def findCIAux (pat : Str) : Str → Nat → Option Nat
  | [], base => if startsWithCI pat [] then some base else none
  | c :: rest, base =>
    if startsWithCI pat (c :: rest) then some base
    else findCIAux pat rest (base + 1)

/-- pat matches case-insensitively at position i of txt. -/
def occursCIAt (pat txt : Str) (i : Nat) : Prop := startsWithCI pat (txt.drop i) = true

/-- The literal "*** START OF" head of the start-marker pattern. -/
def startKw : Str := "*** START OF".toList

/-- The literal "*** END OF" head of the end-marker pattern. -/
def endKw : Str := "*** END OF".toList

/-- The closing token of both marker patterns. -/
def starStar : Str := "***".toList

/-- re.search(kw + lazy-dot-star + "***", txt, re.I|re.S): the match starts at
the leftmost occurrence of the keyword and the lazy group ends at the first
following "***"; returns (match start, match end). When the keyword occurs but
no "***" follows, no later occurrence can complete the pattern either, so the
search fails. -/
def searchMarker (kw : Str) (txt : Str) : Option (Nat × Nat) :=
  match findCIAux kw txt 0 with
  | none => none
  | some i =>
    match findCIAux starStar (txt.drop (i + kw.length)) 0 with
    | none => none
    | some d => some (i, i + kw.length + d + 3)

/-- re.sub(r'\r', '', body). -/
def removeCR (l : Str) : Str := l.filter (fun c => !(c = '\r'))

/-- strip_gutenberg_boilerplate from the source:
body = txt[(start.end() if start else 0):(end.start() if end else len(txt))],
carriage returns removed, then stripped. -/
def strip_gutenberg_boilerplate (txt : Str) : Str :=
  let s := match searchMarker startKw txt with
    | some p => p.2
    | none => 0
  let e := match searchMarker endKw txt with
    | some p => p.1
    | none => txt.length
  pyStrip (removeCR ((txt.take e).drop s))

theorem findCIAux_some_spec (pat : Str) : ∀ (l : Str) (base i : Nat),
    findCIAux pat l base = some i →
    base ≤ i ∧ startsWithCI pat (l.drop (i - base)) = true ∧
      ∀ j, j < i - base → startsWithCI pat (l.drop j) = false := by
  intro l
  induction l with
  | nil =>
    intro base i h
    by_cases hs : startsWithCI pat [] = true
    · have : some base = some i := by
        rw [← h]
        show some base = if startsWithCI pat [] then some base else none
        rw [if_pos hs]
      have hbi : base = i := by injection this
      subst hbi
      refine ⟨Nat.le_refl base, ?_, ?_⟩
      · simpa using hs
      · intro j hj
        omega
    · exfalso
      have : findCIAux pat [] base = none := by
        show (if startsWithCI pat [] then some base else none) = none
        rw [if_neg hs]
      rw [this] at h
      exact Option.noConfusion h
  | cons c rest ih =>
    intro base i h
    by_cases hs : startsWithCI pat (c :: rest) = true
    · have heq : some base = some i := by
        rw [← h]
        show some base = if startsWithCI pat (c :: rest) then some base
          else findCIAux pat rest (base + 1)
        rw [if_pos hs]
      have hbi : base = i := by injection heq
      subst hbi
      refine ⟨Nat.le_refl base, by simpa using hs, ?_⟩
      intro j hj
      omega
    · have hrec : findCIAux pat rest (base + 1) = some i := by
        rw [← h]
        show findCIAux pat rest (base + 1)
          = if startsWithCI pat (c :: rest) then some base else findCIAux pat rest (base + 1)
        rw [if_neg hs]
      obtain ⟨hle, hocc, hmin⟩ := ih (base + 1) i hrec
      refine ⟨by omega, ?_, ?_⟩
      · have harith : i - base = (i - (base + 1)) + 1 := by omega
        rw [harith]
        show startsWithCI pat (rest.drop (i - (base + 1))) = true
        exact hocc
      · intro j hj
        match j with
        | 0 =>
          show startsWithCI pat (c :: rest) = false
          cases hcs : startsWithCI pat (c :: rest)
          · rfl
          · exact absurd hcs hs
        | Nat.succ j' =>
          show startsWithCI pat (rest.drop j') = false
          exact hmin j' (by omega)

theorem searchMarker_pos (kw txt : Str) (s e : Nat) (h : searchMarker kw txt = some (s, e)) :
    occursCIAt kw txt s ∧ (∀ j, j < s → ¬ occursCIAt kw txt j) ∧
      occursCIAt starStar txt (s + kw.length + (e - 3 - s - kw.length)) ∧
      s + kw.length + 3 ≤ e ∧
      (∀ j, s + kw.length ≤ j → j < e - 3 → ¬ occursCIAt starStar txt j) := by
  unfold searchMarker at h
  cases h1 : findCIAux kw txt 0 with
  | none => rw [h1] at h; exact Option.noConfusion h
  | some i =>
    rw [h1] at h
    dsimp only at h
    cases h2 : findCIAux starStar (txt.drop (i + kw.length)) 0 with
    | none => rw [h2] at h; exact Option.noConfusion h
    | some d =>
      rw [h2] at h
      dsimp only at h
      have hpair : (i, i + kw.length + d + 3) = (s, e) := by injection h
      have hs : i = s := congrArg Prod.fst hpair
      have he : i + kw.length + d + 3 = e := congrArg Prod.snd hpair
      subst hs
      obtain ⟨_, hocc1, hmin1⟩ := findCIAux_some_spec kw txt 0 i h1
      obtain ⟨_, hocc2, hmin2⟩ := findCIAux_some_spec starStar (txt.drop (i + kw.length)) 0 d h2
      have hd : e - 3 - i - kw.length = d := by omega
      refine ⟨?_, ?_, ?_, by omega, ?_⟩
      · show startsWithCI kw (txt.drop (i - 0)) = true
        simpa using hocc1
      · intro j hj
        show ¬ startsWithCI kw (txt.drop j) = true
        have := hmin1 j (by omega)
        rw [this]
        simp
      · rw [hd]
        show startsWithCI starStar (txt.drop (i + kw.length + d)) = true
        rw [← List.drop_drop d (i + kw.length) txt]
        have : d - 0 = d := by omega
        rw [← this]
        exact hocc2
      · intro j hj1 hj2
        show ¬ startsWithCI starStar (txt.drop j) = true
        have harith : j = (i + kw.length) + (j - (i + kw.length)) := by omega
        rw [harith, ← List.drop_drop (j - (i + kw.length)) (i + kw.length) txt]
        have := hmin2 (j - (i + kw.length)) (by omega)
        rw [this]
        simp

/-- C7: strip_gutenberg_boilerplate always returns a string, and the returned
body is the substring strictly between the end of the start marker and the
beginning of the end marker (with carriage returns removed and surrounding
whitespace trimmed), each marker found case-insensitively at its leftmost
position with the lazy group running to the first closing "***"; an absent
start marker bounds the body at the start of the text and an absent end marker
at its end. -/
theorem strip_gutenberg_spec (txt : Str) :
    (∀ ss se es ee, searchMarker startKw txt = some (ss, se) →
      searchMarker endKw txt = some (es, ee) →
      strip_gutenberg_boilerplate txt = pyStrip (removeCR ((txt.take es).drop se))) ∧
    (∀ es ee, searchMarker startKw txt = none → searchMarker endKw txt = some (es, ee) →
      strip_gutenberg_boilerplate txt = pyStrip (removeCR (txt.take es))) ∧
    (∀ ss se, searchMarker startKw txt = some (ss, se) → searchMarker endKw txt = none →
      strip_gutenberg_boilerplate txt = pyStrip (removeCR (txt.drop se))) ∧
    (searchMarker startKw txt = none → searchMarker endKw txt = none →
      strip_gutenberg_boilerplate txt = pyStrip (removeCR txt)) ∧
    (∀ ss se, searchMarker startKw txt = some (ss, se) →
      occursCIAt startKw txt ss ∧ (∀ j, j < ss → ¬ occursCIAt startKw txt j) ∧
        ss + startKw.length + 3 ≤ se ∧
        (∀ j, ss + startKw.length ≤ j → j < se - 3 → ¬ occursCIAt starStar txt j)) ∧
    (∀ es ee, searchMarker endKw txt = some (es, ee) →
      occursCIAt endKw txt es ∧ ∀ j, j < es → ¬ occursCIAt endKw txt j) := by
  refine ⟨?_, ?_, ?_, ?_, ?_, ?_⟩
  · intro ss se es ee h1 h2
    unfold strip_gutenberg_boilerplate
    rw [h1, h2]
  · intro es ee h1 h2
    unfold strip_gutenberg_boilerplate
    rw [h1, h2]
    dsimp only
    rw [List.drop_zero]
  · intro ss se h1 h2
    unfold strip_gutenberg_boilerplate
    rw [h1, h2]
    dsimp only
    rw [List.take_length]
  · intro h1 h2
    unfold strip_gutenberg_boilerplate
    rw [h1, h2]
    dsimp only
    rw [List.take_length, List.drop_zero]
  · intro ss se h
    obtain ⟨ho, hmin, _, hle, hmin2⟩ := searchMarker_pos startKw txt ss se h
    exact ⟨ho, hmin, hle, hmin2⟩
  · intro es ee h
    obtain ⟨ho, hmin, _, _, _⟩ := searchMarker_pos endKw txt es ee h
    exact ⟨ho, hmin⟩

/-- Concrete text containing both markers. -/
def txt7 : Str := "AA*** START OF X ***BODY*** END OF X ***ZZ".toList

theorem strip_gutenberg_witness :
    searchMarker startKw txt7 = some (2, 20) ∧ searchMarker endKw txt7 = some (24, 40) ∧
      strip_gutenberg_boilerplate txt7 = pyStrip (removeCR ((txt7.take 24).drop 20)) ∧
      strip_gutenberg_boilerplate txt7 = "BODY".toList := by
  have h1 : searchMarker startKw txt7 = some (2, 20) := by decide
  have h2 : searchMarker endKw txt7 = some (24, 40) := by decide
  refine ⟨h1, h2, (strip_gutenberg_spec txt7).1 2 20 24 40 h1 h2, ?_⟩
  rw [(strip_gutenberg_spec txt7).1 2 20 24 40 h1 h2]
  decide

/-- Word characters of the regex class \w (ASCII fragment). -/
def isWordChar (c : Char) : Bool :=
  ('a' ≤ c && c ≤ 'z') || ('A' ≤ c && c ≤ 'Z') || ('0' ≤ c && c ≤ '9') || c = '_'

/-- One alternation branch KW\s+\w+\.?.* of the chapter-heading pattern,
attempted (case-insensitively) at the head of l. The branch must be followed
by the pattern's final newline; on success returns the group length (ending
just before that newline). Runs are maximal: \s+, \w+ and .* each end at a
character outside their class, and no backtracking can succeed because each
following token lies outside the preceding class. -/
def matchBranchLen (kw : Str) (l : Str) : Option Nat :=
  if startsWithCI kw l then
    let l1 := l.drop kw.length
    let wsn := (l1.takeWhile isPyWs).length
    if wsn = 0 then none
    else
      let l2 := l1.drop wsn
      let wn := (l2.takeWhile isWordChar).length
      if wn = 0 then none
      else
        let l3 := l2.drop wn
        let dn : Nat := match l3 with
          | '.' :: _ => 1
          | _ => 0
        let l4 := l3.drop dn
        let ln := (l4.takeWhile (fun d => !(d = '\n'))).length
        match l4.drop ln with
        | '\n' :: _ => some (kw.length + wsn + wn + dn + ln)
        | _ => none
  else none

/-- The three alternation branches, in pattern order. -/
def matchHeadGroup (l : Str) : Option Nat :=
  match matchBranchLen ("CHAPTER".toList) l with
  | some g => some g
  | none =>
    match matchBranchLen ("BOOK".toList) l with
    | some g => some g
    | none => matchBranchLen ("SECTION".toList) l

/-- Attempt the full heading separator \n\s*(...)\n at the head of l: leading
newline, maximal whitespace run, one branch, trailing newline. Returns the
captured group and the total match length. -/
def matchHeadingHere (l : Str) : Option (Str × Nat) :=
  match l with
  | [] => none
  | c :: r =>
    if c = '\n' then
      let wsn := (r.takeWhile isPyWs).length
      match matchHeadGroup (r.drop wsn) with
      | some g => some ((r.drop wsn).take g, 1 + wsn + g + 1)
      | none => none
    else none

theorem matchHeadingHere_cons (c : Char) (r : Str) :
    matchHeadingHere (c :: r) =
      if c = '\n' then
        match matchHeadGroup (r.drop (r.takeWhile isPyWs).length) with
        | some g => some ((r.drop (r.takeWhile isPyWs).length).take g,
            1 + (r.takeWhile isPyWs).length + g + 1)
        | none => none
      else none := rfl

theorem matchHeadingHere_len_pos (l : Str) (g : Str) (m : Nat)
    (h : matchHeadingHere l = some (g, m)) : 1 ≤ m := by
  cases l with
  | nil => exact Option.noConfusion h
  | cons c r =>
    rw [matchHeadingHere_cons] at h
    by_cases hc : c = '\n'
    · rw [if_pos hc] at h
      cases h2 : matchHeadGroup (r.drop (r.takeWhile isPyWs).length) with
      | none => rw [h2] at h; exact Option.noConfusion h
      | some g2 =>
        rw [h2] at h
        have hm := congrArg (fun o : Option (Str × Nat) => (o.getD ([], 0)).2) h
        simp at hm
        omega
    · rw [if_neg hc] at h
      exact Option.noConfusion h

/-- re.split of the heading pattern: scan left to right; at each match emit the
pending part and the captured group, and continue after the match. Mirrors the
flat parts list [pre, group1, seg1, group2, seg2, ...] that re.split returns. -/
def splitHeadings : Str → List Str
  | [] => [[]]
  | c :: rest =>
    match hm : matchHeadingHere (c :: rest) with
    | some (g, m) => [] :: g :: splitHeadings ((c :: rest).drop m)
    | none =>
      match splitHeadings rest with
      | [] => [[c]]
      | s :: ss => (c :: s) :: ss
termination_by l => l.length
decreasing_by
  · have h1 := matchHeadingHere_len_pos (c :: rest) g m hm
    rw [List.length_drop]
    simp only [List.length_cons]
    omega
  · simp only [List.length_cons]
    omega

/-- Greatest index of `c` in l, if any (the backtracked end of a greedy \s*
run that must be followed by a newline). -/
def lastIdxOf (c : Char) : Str → Option Nat
  | [] => none
  | d :: rest =>
    match lastIdxOf c rest with
    | some j => some (j + 1)
    | none => if d = c then some 0 else none

/-- Attempt the dashed separator \n\s*[-=]\x7b3,\x7d\s*\n at the head of l:
leading newline, maximal whitespace run, at least three dashes or equal signs
(maximal run), then whitespace up to the last newline the second \s* can
reach. Returns the total match length. -/
def matchDashHere (l : Str) : Option Nat :=
  match l with
  | [] => none
  | c :: r =>
    if c = '\n' then
      let wsn := (r.takeWhile isPyWs).length
      let l2 := r.drop wsn
      let dn := (l2.takeWhile (fun d => d = '-' || d = '=')).length
      if 3 ≤ dn then
        match lastIdxOf '\n' ((l2.drop dn).takeWhile isPyWs) with
        | some j => some (1 + wsn + dn + j + 1)
        | none => none
      else none
    else none

theorem matchDashHere_cons (c : Char) (r : Str) :
    matchDashHere (c :: r) =
      if c = '\n' then
        let wsn := (r.takeWhile isPyWs).length
        let l2 := r.drop wsn
        let dn := (l2.takeWhile (fun d => d = '-' || d = '=')).length
        if 3 ≤ dn then
          match lastIdxOf '\n' ((l2.drop dn).takeWhile isPyWs) with
          | some j => some (1 + wsn + dn + j + 1)
          | none => none
        else none
      else none := rfl

theorem matchDashHere_len_pos (l : Str) (m : Nat)
    (h : matchDashHere l = some m) : 1 ≤ m := by
  cases l with
  | nil => exact Option.noConfusion h
  | cons c r =>
    rw [matchDashHere_cons] at h
    by_cases hc : c = '\n'
    · rw [if_pos hc] at h
      dsimp only at h
      by_cases hd : 3 ≤ ((r.drop (r.takeWhile isPyWs).length).takeWhile
          (fun d => d = '-' || d = '=')).length
      · rw [if_pos hd] at h
        cases h2 : lastIdxOf '\n'
            (((r.drop (r.takeWhile isPyWs).length).drop
              ((r.drop (r.takeWhile isPyWs).length).takeWhile
                (fun d => d = '-' || d = '=')).length).takeWhile isPyWs) with
        | none => rw [h2] at h; exact Option.noConfusion h
        | some j =>
          rw [h2] at h
          have hm := congrArg (fun o : Option Nat => o.getD 0) h
          simp at hm
          omega
      · rw [if_neg hd] at h
        exact Option.noConfusion h
    · rw [if_neg hc] at h
      exact Option.noConfusion h

/-- re.split of the dashed-separator pattern. -/
def splitDashed : Str → List Str
  | [] => [[]]
  | c :: rest =>
    match hm : matchDashHere (c :: rest) with
    | some m => [] :: splitDashed ((c :: rest).drop m)
    | none =>
      match splitDashed rest with
      | [] => [[c]]
      | s :: ss => (c :: s) :: ss
termination_by l => l.length
decreasing_by
  · have h1 := matchDashHere_len_pos (c :: rest) m hm
    rw [List.length_drop]
    simp only [List.length_cons]
    omega
  · simp only [List.length_cons]
    omega

/-- Consecutive pairing zip(it, it) over the tail of the parts list, with
title and content both stripped. -/
def pairUp : List Str → List (Str × Str)
  | t :: c :: rest => (pyStrip t, pyStrip c) :: pairUp rest
  | _ => []

/-- Decimal rendering of the 1-based index in f-string "Section \x7bi+1\x7d". -/
def sectionLabel (n : Nat) : Str := "Section ".toList ++ Nat.toDigits 10 n

/-- The fallback comprehension
[(f"Section \x7bi+1\x7d", s.strip()) for i, s in enumerate(rough) if s.strip()] —
note that i indexes rough before the blank chunks are dropped. -/
def dashFallback (txt : Str) : List (Str × Str) :=
  (splitDashed txt).enum.filterMap (fun p =>
    if (pyStrip p.2).isEmpty then none else some (sectionLabel (p.1 + 1), pyStrip p.2))

/-- split_chapters from the source: primary heading-based split re-stitched as
[title, content] pairs with an optional "Introduction" pseudo-section, falling
back to the dashed-separator split when no heading matched. -/
def split_chapters (txt : Str) : List (Str × Str) :=
  let parts := splitHeadings txt
  if 1 < parts.length then
    (if (pyStrip (parts.headD [])).isEmpty then []
     else [("Introduction".toList, parts.headD [])]) ++ pairUp (parts.drop 1)
  else dashFallback txt

theorem splitHeadings_odd (l : Str) : ∃ k, (splitHeadings l).length = 2 * k + 1 := by
  induction l using splitHeadings.induct with
  | case1 =>
    refine ⟨0, ?_⟩
    rw [splitHeadings]
    rfl
  | case2 c rest g m hm ih =>
    obtain ⟨k, hk⟩ := ih
    refine ⟨k + 1, ?_⟩
    rw [splitHeadings, hm]
    simp only [List.length_cons, hk]
    omega
  | case3 c rest hm hnil ih =>
    obtain ⟨k, hk⟩ := ih
    rw [hnil] at hk
    simp at hk
  | case4 c rest hm s ss hcons ih =>
    obtain ⟨k, hk⟩ := ih
    refine ⟨k, ?_⟩
    rw [splitHeadings, hm, hcons]
    rw [hcons] at hk
    simpa using hk

/-- C5 (amended): split_chapters returns a non-empty list whenever the primary
heading split matched (more than one part); in the dashed fallback the result
is non-empty exactly when some chunk of the dashed split has non-blank
content; a whitespace-only (hence non-empty) input therefore yields the empty
list, which the caller guards by substituting a default section. -/
theorem split_chapters_nonempty_iff (txt : Str) :
    (1 < (splitHeadings txt).length → split_chapters txt ≠ []) ∧
    ((splitHeadings txt).length ≤ 1 →
      (split_chapters txt ≠ [] ↔ ∃ s ∈ splitDashed txt, (pyStrip s).isEmpty = false)) := by
  constructor
  · intro hlen
    unfold split_chapters
    rw [if_pos hlen]
    obtain ⟨k, hk⟩ := splitHeadings_odd txt
    cases hp : splitHeadings txt with
    | nil => rw [hp] at hk; simp at hk
    | cons p0 tl =>
      cases tl with
      | nil => rw [hp] at hlen; simp at hlen
      | cons p1 tl2 =>
        cases tl2 with
        | nil =>
          rw [hp] at hk
          simp only [List.length_cons, List.length_nil] at hk
          omega
        | cons p2 rest =>
          show ((if (pyStrip ((p0 :: p1 :: p2 :: rest).headD [])).isEmpty then []
            else [("Introduction".toList, (p0 :: p1 :: p2 :: rest).headD [])])
              ++ pairUp ((p0 :: p1 :: p2 :: rest).drop 1)) ≠ []
          have hdrop : (p0 :: p1 :: p2 :: rest).drop 1 = p1 :: p2 :: rest := rfl
          rw [hdrop]
          have hpair : pairUp (p1 :: p2 :: rest) = (pyStrip p1, pyStrip p2) :: pairUp rest := rfl
          rw [hpair]
          simp
  · intro hlen
    unfold split_chapters
    rw [if_neg (by omega)]
    unfold dashFallback
    constructor
    · intro hne
      by_contra hnot
      apply hne
      rw [List.filterMap_eq_nil_iff]
      intro p hp
      by_cases hemp : (pyStrip p.2).isEmpty = true
      · rw [if_pos hemp]
      · exfalso
        apply hnot
        refine ⟨p.2, ?_, ?_⟩
        · exact List.get?_mem (List.mem_enum_iff_get?.mp hp)
        · cases hval : (pyStrip p.2).isEmpty
          · rfl
          · exact absurd hval hemp
    · intro ⟨s, hs, hemp⟩ hcontra
      rw [List.filterMap_eq_nil_iff] at hcontra
      obtain ⟨n, hn⟩ := List.mem_iff_get?.mp hs
      have hmem : (n, s) ∈ (splitDashed txt).enum := List.mem_enum_iff_get?.mpr hn
      have := hcontra (n, s) hmem
      rw [if_neg (by rw [hemp]; simp)] at this
      exact Option.noConfusion this

theorem splitHeadings_nil : splitHeadings [] = [[]] := by
  rw [splitHeadings]

theorem splitDashed_nil : splitDashed [] = [[]] := by
  rw [splitDashed]

theorem splitHeadings_blank : splitHeadings [' '] = [[' ']] := by
  rw [splitHeadings]
  rw [show matchHeadingHere [' '] = none from by decide]
  rw [splitHeadings_nil]

theorem splitDashed_blank : splitDashed [' '] = [[' ']] := by
  rw [splitDashed]
  rw [show matchDashHere [' '] = none from by decide]
  rw [splitDashed_nil]

/-- C5 counterexample: the single-space input is non-empty, yet split_chapters
returns the empty list (the primary split finds no heading and the dashed
fallback drops the blank chunk), so the claim that non-empty input always
yields at least one section is false; the caller's guard substitutes a default
section in exactly this case. -/
theorem split_chapters_blank_cex :
    ([' '] : Str) ≠ [] ∧ split_chapters [' '] = [] := by
  refine ⟨by simp, ?_⟩
  unfold split_chapters
  rw [splitHeadings_blank]
  rw [if_neg (by simp)]
  unfold dashFallback
  rw [splitDashed_blank]
  decide

theorem splitHeadings_witness_book : splitHeadings ("\nBOOK A\n".toList) =
    [[], "BOOK A".toList, []] := by
  show splitHeadings ('\n' :: "BOOK A\n".toList) = [[], "BOOK A".toList, []]
  rw [splitHeadings]
  rw [show matchHeadingHere ('\n' :: "BOOK A\n".toList) = some ("BOOK A".toList, 8) from by decide]
  dsimp only
  rw [show ('\n' :: "BOOK A\n".toList).drop 8 = [] from by decide]
  rw [splitHeadings_nil]

theorem splitHeadings_a : splitHeadings ['a'] = [['a']] := by
  rw [splitHeadings]
  rw [show matchHeadingHere ['a'] = none from by decide]
  rw [splitHeadings_nil]

theorem splitDashed_a : splitDashed ['a'] = [['a']] := by
  rw [splitDashed]
  rw [show matchDashHere ['a'] = none from by decide]
  rw [splitDashed_nil]

theorem split_chapters_nonempty_witness :
    (1 < (splitHeadings ("\nBOOK A\n".toList)).length ∧
      split_chapters ("\nBOOK A\n".toList) ≠ []) ∧
    ((splitHeadings ['a']).length ≤ 1 ∧ split_chapters ['a'] ≠ []) := by
  constructor
  · have hlen : 1 < (splitHeadings ("\nBOOK A\n".toList)).length := by
      rw [splitHeadings_witness_book]
      simp
    exact ⟨hlen, (split_chapters_nonempty_iff ("\nBOOK A\n".toList)).1 hlen⟩
  · have hlen : (splitHeadings ['a']).length ≤ 1 := by
      rw [splitHeadings_a]
      simp
    refine ⟨hlen, ((split_chapters_nonempty_iff ['a']).2 hlen).mpr ?_⟩
    refine ⟨['a'], ?_, by decide⟩
    rw [splitDashed_a]
    simp

/-- Word-boundary test of \b after a keyword: the next character must not be a
word character (or the text ends). -/
def boundaryAfter (l : Str) : Bool :=
  match l with
  | [] => true
  | d :: _ => !isWordChar d

/-- Try the alternation (CHAPTER|BOOK|SECTION)\b case-insensitively at the
head of l2; returns the keyword length. -/
def tryFixupKw (l2 : Str) : Option Nat :=
  if startsWithCI ("CHAPTER".toList) l2 && boundaryAfter (l2.drop 7) then some 7
  else if startsWithCI ("BOOK".toList) l2 && boundaryAfter (l2.drop 4) then some 4
  else if startsWithCI ("SECTION".toList) l2 && boundaryAfter (l2.drop 7) then some 7
  else none

/-- Attempt (\n\s*)(CHAPTER|BOOK|SECTION)\b at the head of l: returns the
matched keyword text (group 2, original casing) and the total match length. -/
def matchFixupHere (l : Str) : Option (Str × Nat) :=
  match l with
  | [] => none
  | c :: r =>
    if c = '\n' then
      let wsn := (r.takeWhile isPyWs).length
      match tryFixupKw (r.drop wsn) with
      | some klen => some ((r.drop wsn).take klen, 1 + wsn + klen)
      | none => none
    else none

theorem matchFixupHere_len_pos (l : Str) (g : Str) (m : Nat)
    (h : matchFixupHere l = some (g, m)) : 1 ≤ m := by
  cases l with
  | nil => exact Option.noConfusion h
  | cons c r =>
    rw [show matchFixupHere (c :: r) =
      (if c = '\n' then
        match tryFixupKw (r.drop (r.takeWhile isPyWs).length) with
        | some klen => some ((r.drop (r.takeWhile isPyWs).length).take klen,
            1 + (r.takeWhile isPyWs).length + klen)
        | none => none
      else none) from rfl] at h
    by_cases hc : c = '\n'
    · rw [if_pos hc] at h
      cases h2 : tryFixupKw (r.drop (r.takeWhile isPyWs).length) with
      | none => rw [h2] at h; exact Option.noConfusion h
      | some klen =>
        rw [h2] at h
        have hm := congrArg (fun o : Option (Str × Nat) => (o.getD ([], 0)).2) h
        simp at hm
        omega
    · rw [if_neg hc] at h
      exact Option.noConfusion h

/-- re.sub(r'(\n\s*)(CHAPTER|BOOK|SECTION)\b', r'\n\n\2', body, flags=re.I):
each match's leading newline-plus-whitespace is replaced by a blank line, the
keyword is kept as matched, and scanning resumes after the match. -/
def headingFixup : Str → Str
  | [] => []
  | c :: rest =>
    match hm : matchFixupHere (c :: rest) with
    | some (g, m) => '\n' :: '\n' :: (g ++ headingFixup ((c :: rest).drop m))
    | none => c :: headingFixup rest
termination_by l => l.length
decreasing_by
  · have h1 := matchFixupHere_len_pos (c :: rest) g m hm
    rw [List.length_drop]
    simp only [List.length_cons]
    omega
  · simp only [List.length_cons]
    omega

/-- One catalog entry of books.json; `cover` is the optional cover filename. -/
structure Book where
  title : Str
  author : Str
  gutenberg_url : Str
  cover : Option Str

/-- An HTTP response as seen by the script: status code and body text. -/
structure Resp where
  status : Nat
  text : Str

/-- Failure modes of the fetch step: a transport error raised by requests.get
(network failure or timeout), or a non-success status raised by
raise_for_status. -/
inductive FetchErr where
  | transport
  | httpStatus (code : Nat)
deriving DecidableEq

/-- resp.raise_for_status(): raises for 4xx and 5xx status codes. -/
def raise_for_status (r : Resp) : Except FetchErr Unit :=
  if 400 ≤ r.status ∧ r.status < 600 then Except.error (FetchErr.httpStatus r.status)
  else Except.ok ()

/-- cover_path = f"covers/\x7bbook.get('cover', 'placeholder.jpg')\x7d". -/
def coverPathOf (book : Book) : Str :=
  "covers/".toList ++ book.cover.getD ("placeholder.jpg".toList)

/-- The fixed HTML template of the script with the interpolated fields; the
escaped braces of the f-string render as literal braces. -/
def renderPage (today : Str) (book : Book) (coverExists : Bool)
    (sectionTitle passage : Str) : Str :=
  "<!doctype html>\n<html lang=\"en\">\n<head>\n<meta charset=\"utf-8\" />\n<meta name=\"viewport\" content=\"width=device-width,initial-scale=1\" />\n<title>Daily One-Pager • ".toList
  ++ today
  ++ "</title>\n<style>\n  body \x7b font-family: system-ui, -apple-system, Segoe UI, Roboto, Arial, sans-serif; margin:0; background:#0f172a; color:#e2e8f0; \x7d\n  .wrap \x7b max-width: 820px; margin: 56px auto; padding: 0 20px; \x7d\n  .card \x7b background:#111827; border-radius:20px; padding:28px; box-shadow:0 10px 30px rgba(0,0,0,.35); \x7d\n  h1 \x7b margin: 0 0 6px; font-size: 26px; \x7d\n  .meta \x7b opacity:.85; font-size:14px; margin-bottom:16px \x7d\n  .cover \x7b width: 160px; height: 220px; background:#1f2937; border-radius:8px; margin: 6px 0 18px; display:block; \x7d\n  .nocover \x7b display:flex; align-items:center; justify-content:center; color:#94a3b8; font-size:13px; \x7d\n  p \x7b line-height:1.75; white-space:pre-wrap; \x7d\n  .section \x7b font-size: 16px; opacity:.9; margin-top: -6px; margin-bottom:12px; \x7d\n</style>\n</head>\n<body>\n  <div class=\"wrap\">\n    <div class=\"card\">\n      <div class=\"meta\">".toList
  ++ safe_html today
  ++ "</div>\n      <h1>".toList
  ++ safe_html book.title
  ++ "</h1>\n      <div class=\"meta\">by ".toList
  ++ safe_html book.author
  ++ "</div>\n      ".toList
  ++ (if coverExists then
        "<img class=\x27cover\x27 alt=\x27Book cover\x27 src=\x27".toList
          ++ safe_html (coverPathOf book) ++ "\x27 />".toList
      else "<div class=\x27cover nocover\x27>cover image not found</div>".toList)
  ++ "\n      <div class=\"section\">".toList
  ++ safe_html sectionTitle
  ++ "</div>\n      <p>".toList
  ++ safe_html passage
  ++ "</p>\n    </div>\n  </div>\n</body>\n</html>".toList

/-- The single filesystem write the script performs. -/
structure PageWrite where
  path : Str
  content : Str

/-- The script's top-level flow from the fetch onward, with the external
collaborators (selected book, fetch outcome, today's date, cover-file
existence) as parameters. A transport error or raise_for_status failure
aborts with no PageWrite; otherwise the body is stripped, fixed up, split,
guarded, selected and rendered into the one write of docs/index.html.
(choose_important_section is total here because the guard makes chunks
non-empty; getD supplies its never-used default.) -/
def runScript (book : Book) (fetch : Except FetchErr Resp)
    (today : Str) (coverExists : Bool) : Except FetchErr PageWrite :=
  match fetch with
  | Except.error e => Except.error e
  | Except.ok resp =>
    match raise_for_status resp with
    | Except.error e => Except.error e
    | Except.ok _ =>
      let raw := resp.text
      let body := headingFixup (strip_gutenberg_boilerplate raw)
      let chunks0 := split_chapters body
      let chunks := if chunks0.isEmpty then [("Passage".toList, body.take 1800)] else chunks0
      let sel := (choose_important_section chunks).getD ([], [])
      Except.ok
        { path := "docs/index.html".toList
          content := renderPage today book coverExists sel.1 sel.2 }

/-- C9: when the fetch fails — a transport error (network failure, timeout) or
a non-success status raised by raise_for_status — the run aborts before the
output write: runScript produces the error and no PageWrite, so
docs/index.html is neither produced nor overwritten. -/
theorem fetch_failure_writes_nothing (book : Book) (today : Str) (cov : Bool) :
    (∀ e, runScript book (Except.error e) today cov = Except.error e) ∧
    (∀ resp e, raise_for_status resp = Except.error e →
      runScript book (Except.ok resp) today cov = Except.error e) := by
  constructor
  · intro e
    rfl
  · intro resp e h
    unfold runScript
    dsimp only
    rw [h]

/-- Concrete aborting runs: a transport error and a 404 status. -/
theorem fetch_failure_witness :
    runScript ⟨[], [], [], none⟩ (Except.error FetchErr.transport) [] false
        = Except.error FetchErr.transport ∧
      raise_for_status ⟨404, []⟩ = Except.error (FetchErr.httpStatus 404) ∧
      runScript ⟨[], [], [], none⟩ (Except.ok ⟨404, []⟩) [] false
        = Except.error (FetchErr.httpStatus 404) := by
  have h404 : raise_for_status ⟨404, []⟩ = Except.error (FetchErr.httpStatus 404) := by
    unfold raise_for_status
    rw [if_pos (by decide)]
  exact ⟨(fetch_failure_writes_nothing ⟨[], [], [], none⟩ [] false).1 FetchErr.transport,
    h404,
    (fetch_failure_writes_nothing ⟨[], [], [], none⟩ [] false).2 ⟨404, []⟩ _ h404⟩
